import Mathlib

/-!
The transformation steps of `main.go` of tor-go-web-scraper

A Go `string` is modelled by the list of its runes (`Str`), the view the
`regexp`, `strings` and `unicode` packages take of UTF-8 text; the same type
stands for a `[]byte` that holds text.  Input that is not valid UTF-8 is
outside the model.

Library functions the program calls (`regexp`, `strings`, `encoding/hex`,
`Time.Format`) are written out below; services of the outside world (clock,
URL parser, SHA-256, rune lower-casing, HTTP client, decompressors, browser)
are fields of `Env`, and the theorems hold for every `Env`.

The loops of `FindAll`, `ReplaceAllString` and `strings.ReplaceAll` run on
fuel, the input length plus one: every turn moves on by at least one rune, and
`replaceAllAux_fuel`, `findAllAux_fuel` and `stringsReplaceAux_fuel` show that
more fuel changes nothing.
-/

namespace TorScraper

/-- A Go string, as the sequence of its runes. -/
abbrev Str := List Char

/-! ## `regexp`: leftmost-first matching for the patterns of the program -/

/-- One node of a pattern: a character class, a starred class (`greedy`
tells `x*` from `x*?`), or a bracket of capture group 1.  `x+` is `x` followed
by `x*`. -/
inductive Item where
  | one (p : Char → Bool)
  | many (p : Char → Bool) (greedy : Bool)
  | capOpen
  | capClose

/-- A compiled pattern. -/
abbrev Regexp := List Item

/-- The result of one match: the matched text (`m[0]`), the text of group 1
(`m[1]`) and the input that follows the match. -/
structure Match where
  whole : Str
  cap : Str
  rest : Str
deriving DecidableEq, Repr

/-- Put a consumed rune in front of a match found on the remaining input. -/
def Match.push (inCap : Bool) (c : Char) (m : Match) : Match :=
  { whole := c :: m.whole, cap := if inCap then c :: m.cap else m.cap, rest := m.rest }

/-- Starred class followed by the continuation `k`.  Greedy: take a rune
first and give it back only when the continuation fails; lazy: try the
continuation first. -/
def matchMany (p : Char → Bool) (greedy : Bool) (inCap : Bool) (k : Str → Option Match) :
    Str → Option Match
  | [] => k []
  | c :: t =>
    if p c then
      if greedy then
        match (matchMany p greedy inCap k t).map (Match.push inCap c) with
        | some m => some m
        | none => k (c :: t)
      else
        match k (c :: t) with
        | some m => some m
        | none => (matchMany p greedy inCap k t).map (Match.push inCap c)
    else k (c :: t)

/-- Backtracking match of a pattern at the very start of the input; the first
success in priority order is the leftmost-first match of `regexp`. -/
def matchItems : Regexp → Bool → Str → Option Match
  | [], _, s => some ⟨[], [], s⟩
  | .one p :: is, inCap, s =>
    match s with
    | [] => none
    | c :: t => if p c then (matchItems is inCap t).map (Match.push inCap c) else none
  | .many p g :: is, inCap, s => matchMany p g inCap (matchItems is inCap) s
  | .capOpen :: is, _, s => matchItems is true s
  | .capClose :: is, _, s => matchItems is false s

/-- The match of `re` that starts at the first rune of `s`, if any. -/
def matchAt (re : Regexp) (s : Str) : Option Match := matchItems re false s

/-- Leftmost match: the first start position at which the pattern matches. -/
def findMatch (re : Regexp) : Str → Option Match
  | [] => matchAt re []
  | c :: t =>
    match matchAt re (c :: t) with
    | some m => some m
    | none => findMatch re t

/-- Go `(*Regexp).FindStringSubmatch`: `[m[0], m[1]]` for the leftmost match, the
empty (nil) slice when there is none. -/
def findStringSubmatch (re : Regexp) (s : Str) : List Str :=
  match findMatch re s with
  | some m => [m.whole, m.cap]
  | none => []

/-- Loop of `FindAll`: successive non-overlapping matches, left to right.
`adj` says that the previous match ended at the current position; an empty
match there is dropped, and after an empty match the search moves on by one
rune. -/
def findAllAux (re : Regexp) : Nat → Bool → Str → List Match
  | 0, _, _ => []
  | fuel + 1, adj, s =>
    match matchAt re s with
    | some m =>
      if m.whole = [] then
        (if adj then [] else [m]) ++
          (match s with
           | [] => []
           | _ :: t => findAllAux re fuel false t)
      else m :: findAllAux re fuel true m.rest
    | none =>
      match s with
      | [] => []
      | _ :: t => findAllAux re fuel false t

/-- All successive matches of `re` in `s`. -/
def findAll (re : Regexp) (s : Str) : List Match :=
  findAllAux re (s.length + 1) false s

/-- Go `(*Regexp).FindAllStringSubmatch(s, -1)`. -/
def findAllStringSubmatch (re : Regexp) (s : Str) : List (List Str) :=
  (findAll re s).map fun m => [m.whole, m.cap]

/-- Loop of `ReplaceAllString` for a replacement without `$`: text between
matches is copied, every match is replaced by `repl` (an empty match right
after a match is not). -/
def replaceAllAux (re : Regexp) (repl : Str) : Nat → Bool → Str → Str
  | 0, _, s => s
  | fuel + 1, adj, s =>
    match matchAt re s with
    | some m =>
      if m.whole = [] then
        (if adj then [] else repl) ++
          (match s with
           | [] => []
           | c :: t => c :: replaceAllAux re repl fuel false t)
      else repl ++ replaceAllAux re repl fuel true m.rest
    | none =>
      match s with
      | [] => []
      | c :: t => c :: replaceAllAux re repl fuel false t

/-- Go `(*Regexp).ReplaceAllString(s, repl)`. -/
def replaceAllString (re : Regexp) (s repl : Str) : Str :=
  replaceAllAux re repl (s.length + 1) false s

/-- A rune matched exactly. -/
def exact (c : Char) : Char → Bool := fun x => x == c

/-- A rune matched under `(?i)`: any rune of the simple case-folding orbit of
`c`.  Besides the two ASCII cases, the orbit of `s` holds U+017F and the orbit
of `k` holds U+212A. -/
def folded (c : Char) : Char → Bool := fun x =>
  x.toLower == c.toLower ||
  (c.toLower == 's' && x == Char.ofNat 0x17F) ||
  (c.toLower == 'k' && x == Char.ofNat 0x212A)

/-- A literal, case-sensitive. -/
def lit (s : String) : Regexp := s.toList.map fun c => Item.one (exact c)

/-- A literal under `(?i)`. -/
def litFold (s : String) : Regexp := s.toList.map fun c => Item.one (folded c)

/-- The apostrophe. -/
def apos : Char := Char.ofNat 39

/-- Class `["']`. -/
def isQuote (c : Char) : Bool := c == '"' || c == apos

/-- Class `[^"']`. -/
def notQuote (c : Char) : Bool := !isQuote c

/-- Class `[^>]`. -/
def notGt (c : Char) : Bool := !(c == '>')

/-- Class `.` (no `s` flag): any rune but the newline. -/
def anyButNewline (c : Char) : Bool := !(c == '\n')

/-- Class `[a-zA-Z0-9 _\-]`. -/
def slugChar (c : Char) : Bool :=
  ('a' ≤ c && c ≤ 'z') || ('A' ≤ c && c ≤ 'Z') || ('0' ≤ c && c ≤ '9') ||
  c == ' ' || c == '_' || c == '-'

/-- Class `[^a-zA-Z0-9 _\-]`. -/
def notSlugChar (c : Char) : Bool := !slugChar c

/-! ## `strings`, `unicode`, `encoding/hex` -/

/-- Go `unicode.IsSpace`. -/
def isSpace (c : Char) : Bool :=
  let n := c.toNat
  n == 0x20 || (0x09 ≤ n && n ≤ 0x0D) || n == 0x85 || n == 0xA0 || n == 0x1680 ||
  (0x2000 ≤ n && n ≤ 0x200A) || n == 0x2028 || n == 0x2029 || n == 0x202F ||
  n == 0x205F || n == 0x3000

/-- Go `strings.TrimSpace`. -/
def trimSpace (s : Str) : Str :=
  ((s.dropWhile isSpace).reverse.dropWhile isSpace).reverse

/-- Loop of `strings.ReplaceAll` for a non-empty `old`. -/
def stringsReplaceAux (old new : Str) : Nat → Str → Str
  | 0, s => s
  | fuel + 1, s =>
    if old.isPrefixOf s then new ++ stringsReplaceAux old new fuel (s.drop old.length)
    else
      match s with
      | [] => []
      | c :: t => c :: stringsReplaceAux old new fuel t

/-- Go `strings.ReplaceAll(s, old, new)`; an empty `old` matches before every
rune and at the end. -/
def stringsReplaceAll (s old new : Str) : Str :=
  if old = [] then new ++ s.flatMap (fun c => c :: new)
  else stringsReplaceAux old new (s.length + 1) s

/-- Go `strings.Join`. -/
def stringsJoin (xs : List Str) (sep : Str) : Str := sep.intercalate xs

/-- One digit of `hextable`. -/
def hexDigit (n : Nat) : Char := "0123456789abcdef".toList.getD n '0'

/-- Go `hex.EncodeToString`. -/
def hexEncodeToString (bs : List UInt8) : Str :=
  bs.flatMap fun b => [hexDigit (b.toNat / 16), hexDigit (b.toNat % 16)]

/-- Decimal digits of `n`, zero-padded to at least `w` digits. -/
def padNat (w n : Nat) : Str :=
  let d := (Nat.repr n).toList
  List.replicate (w - d.length) '0' ++ d

/-! ## The outside world -/

/-- A wall-clock reading. -/
structure Time where
  year : Nat
  month : Nat
  day : Nat
  hour : Nat
  minute : Nat
  second : Nat
  nanosecond : Nat
deriving DecidableEq, Repr

/-- Go `Time.Format("2006-01-02_15-04-05")`. -/
def Time.format (t : Time) : Str :=
  padNat 4 t.year ++ "-".toList ++ padNat 2 t.month ++ "-".toList ++ padNat 2 t.day ++
  "_".toList ++ padNat 2 t.hour ++ "-".toList ++ padNat 2 t.minute ++ "-".toList ++
  padNat 2 t.second

/-- The part of `*url.URL` the program reads. -/
structure URL where
  host : Str
deriving DecidableEq, Repr

/-- An `*http.Request`. -/
structure Request where
  method : Str
  url : Str
  header : List (Str × Str)
deriving DecidableEq, Repr

/-- What reading a stream to its end gives (`io.ReadAll`): the bytes, or an
error. -/
abbrev Body := Except Str Str

/-- An `*http.Response`: status, headers (canonical key, values) and body
stream. -/
structure Response where
  statusCode : Nat
  header : List (Str × List Str)
  body : Body

/-- Go `Header.Get`: the first value of the key, `""` when the key is absent. -/
def Response.headerGet (r : Response) (key : Str) : Str :=
  match r.header.lookup key with
  | some (v :: _) => v
  | _ => []

/-- Services the program takes from its libraries and surroundings. -/
structure Env where
  /-- Reading of `time.Now()` in `buildOutputDir`. -/
  now : Time
  /-- Result of `url.Parse`; `none` is the nil URL returned with an error. -/
  urlParse : Str → Option URL
  /-- Result of `sha256.Sum256` on the bytes of a string. -/
  sha256Sum : Str → Fin 32 → UInt8
  /-- Rune mapping `unicode.ToLower`. -/
  unicodeToLower : Char → Char
  /-- Result of `http.NewRequest("GET", url, nil)`; `none` is the nil request
  returned with an error. -/
  newRequest : Str → Option Request
  /-- Result of `client.Do`. -/
  clientDo : Request → Except Str Response
  /-- Result of `gzip.NewReader`: an error, or the decompressed stream. -/
  gzipNewReader : Body → Except Str Body
  /-- Result of `flate.NewReader`: the decompressed stream. -/
  flateNewReader : Body → Body
  /-- Result of `chromedp.Run` in `takeScreenshotTor`: an error, or the
  screenshot and the MHTML snapshot. -/
  chromedpRun : Str → Except Str (Str × Str)

/-- Go `strings.ToLower`. -/
def stringsToLower (env : Env) (s : Str) : Str := s.map env.unicodeToLower

/-! ## `main.go` -/

/-- Pattern `(?i)<base[^>]*>`. -/
def reBase : Regexp := litFold "<base" ++ [.many notGt true] ++ litFold ">"

/-- Pattern `(?i)href=["'][^"']+["']`. -/
def reHref : Regexp :=
  litFold "href=" ++ [.one isQuote, .one notQuote, .many notQuote true, .one isQuote]

/-- Pattern `(?i)src=["'][^"']+["']`. -/
def reSrc : Regexp :=
  litFold "src=" ++ [.one isQuote, .one notQuote, .many notQuote true, .one isQuote]

/-- Pattern `(?i)<title>(.*?)</title>`. -/
def reTitle : Regexp :=
  litFold "<title>" ++ [.capOpen, .many anyButNewline false, .capClose] ++ litFold "</title>"

/-- Pattern `[^a-zA-Z0-9 _\-]`. -/
def reNotSlug : Regexp := [.one notSlugChar]

/-- Pattern `href=["'](http[^"']+)`. -/
def reLink : Regexp :=
  lit "href=" ++ [.one isQuote, .capOpen] ++ lit "http" ++
    [.one notQuote, .many notQuote true, .capClose]

/-- The comment `sanitizeHTML` puts in front of the markup. -/
def notice : Str := "<!--\nOFFLINE\n-->".toList

/-- Replacement of an href attribute. -/
def hrefRepl : Str := "href=\"#\"".toList

/-- Replacement of a src attribute. -/
def srcRepl : Str := "src=\"\"".toList

/-- Source `sanitizeHTML`. -/
def sanitizeHTML (html : Str) : Str :=
  let html := replaceAllString reBase html []
  let html := replaceAllString reHref html hrefRepl
  let html := replaceAllString reSrc html srcRepl
  notice ++ "\n".toList ++ html

/-- Source `extractTitle`. -/
def extractTitle (html : Str) : Str :=
  let m := findStringSubmatch reTitle html
  if m.length > 1 then
    let t := trimSpace (m.getD 1 [])
    let t := replaceAllString reNotSlug t []
    stringsReplaceAll t " ".toList "_".toList
  else "unknown_title".toList

/-- Body of the loop of `extractLinks`: `seen` is the key set of the map,
`links` the slice built so far. -/
def extractLinksLoop : List (List Str) → List Str → List Str → List Str
  | [], _, links => links
  | m :: ms, seen, links =>
    if (m.getD 1 []) ∈ seen then extractLinksLoop ms seen links
    else extractLinksLoop ms ((m.getD 1 []) :: seen) (links ++ [m.getD 1 []])

/-- Source `extractLinks`. -/
def extractLinks (html : Str) : List Str :=
  extractLinksLoop (findAllStringSubmatch reLink html) [] []

/-- Source `buildOutputDir`; `none` is the nil dereference of `u.Host` when
`url.Parse` gave no URL. -/
def buildOutputDir (env : Env) (rawURL title : Str) : Option Str :=
  match env.urlParse rawURL with
  | none => none
  | some u =>
    let site := stringsReplaceAll u.host ".onion".toList []
    let ts := env.now.format
    let hash := env.sha256Sum rawURL
    let short := (hexEncodeToString (List.ofFn hash)).take 6
    some ("output/".toList ++ title ++ "_".toList ++ ts ++ "_".toList ++ site ++
      "_".toList ++ short)

/-- Source `readResponseBody`. -/
def readResponseBody (env : Env) (resp : Response) : Except Str Str :=
  let enc := stringsToLower env (resp.headerGet "Content-Encoding".toList)
  if enc = "gzip".toList then
    match env.gzipNewReader resp.body with
    | .error e => .error e
    | .ok gz => gz
  else if enc = "deflate".toList then env.flateNewReader resp.body
  else resp.body

/-- What a run of the program does to its surroundings. -/
inductive Effect where
  | logErr (target kind : Str)
  | logInfo (target : Str) (status : Nat)
  | mkdirAll (path : Str)
  | writeFile (path data : Str)
  | println (line : Str)
deriving DecidableEq, Repr

/-- How a call ends: it returns, or it panics (which ends the process). -/
inductive Run where
  | returned (effects : List Effect)
  | panicked (effects : List Effect)
deriving DecidableEq, Repr

/-- Go `filepath.Join(dir, name)` for a relative, clean `dir` and a file name. -/
def filepathJoin (dir name : Str) : Str := dir ++ "/".toList ++ name

/-- Source `takeScreenshotTor`: the files written, or the error. -/
def takeScreenshotTor (env : Env) (target outDir : Str) : Except Str (List Effect) :=
  match env.chromedpRun target with
  | .error e => .error e
  | .ok (screenshot, mhtml) =>
    .ok [.writeFile (filepathJoin outDir "screenshot.png".toList) screenshot,
         .writeFile (filepathJoin outDir "site_snapshot.mhtml".toList) mhtml]

/-- The User-Agent header `scanTarget` sets. -/
def userAgent : Str :=
  "Mozilla/5.0 (X11; Linux x86_64; rv:102.0) Gecko/20100101 Firefox/102.0".toList

/-- Source `scanTarget`.  `req.Header.Set` dereferences `req`, which is nil
when `http.NewRequest` returned an error. -/
def scanTarget (env : Env) (target : Str) : Run :=
  match env.newRequest target with
  | none => .panicked []
  | some req =>
    let req := { req with header := ("User-Agent".toList, userAgent) :: req.header }
    match env.clientDo req with
    | .error _ => .returned [.logErr target "TIMEOUT".toList]
    | .ok resp =>
      match readResponseBody env resp with
      | .error _ => .returned [.logErr target "READ ERROR".toList]
      | .ok body =>
        let title := extractTitle body
        match buildOutputDir env target title with
        | none => .panicked []
        | some outDir =>
          let safeHTML := sanitizeHTML body
          let links := extractLinks body
          let saved : List Effect :=
            [.mkdirAll outDir,
             .writeFile (filepathJoin outDir "site_data.html".toList) safeHTML,
             .writeFile (filepathJoin outDir "links.txt".toList) (stringsJoin links "\n".toList)]
          let shot : List Effect :=
            match takeScreenshotTor env target outDir with
            | .error _ => [.logErr target "SCREENSHOT FAILED".toList]
            | .ok written => written
          .returned (saved ++ shot ++
            [.logInfo target resp.statusCode, .println ("[OK ] ".toList ++ target)])

/-! ## Notions used in the proofs -/

/-- A pattern none of whose matches is empty. -/
def NonEmpty (re : Regexp) : Prop := ∀ s m, matchAt re s = some m → m.whole ≠ []

/-! ## Closed forms of the matches of the attribute and link patterns -/

/-- Tail `["'][^"']+["']` of the two attribute patterns. -/
def attrTail : Regexp := [.one isQuote, .one notQuote, .many notQuote true, .one isQuote]

/-- An attribute pattern: literal classes, then a quoted non-empty value. -/
def attrRe (ps : List (Char → Bool)) : Regexp := ps.map Item.one ++ attrTail

/-- Closed form of a match of `attrTail`: a quote, the longest run of
non-quotes, which is not empty, and a quote. -/
def attrValue : Str → Option Match
  | [] => none
  | q :: t =>
    if isQuote q then
      match t.dropWhile notQuote with
      | [] => none
      | q2 :: rest =>
        if t.takeWhile notQuote = [] then none
        else some ⟨q :: (t.takeWhile notQuote ++ [q2]), [], rest⟩
    else none

/-- Classes of the literal `href=` under `(?i)`. -/
def hrefClasses : List (Char → Bool) :=
  [folded 'h', folded 'r', folded 'e', folded 'f', folded '=']

/-- Classes of the literal `src=` under `(?i)`. -/
def srcClasses : List (Char → Bool) := [folded 's', folded 'r', folded 'c', folded '=']

/-- Every match of `re` that starts anywhere in `x` has a matched text that
satisfies `P`. -/
def Good (re : Regexp) (P : Str → Prop) (x : Str) : Prop :=
  ∀ y, y <:+ x → ∀ m, matchAt re y = some m → P m.whole

/-- Every match of `re` on `w ++ s` that starts inside `w` has a matched text
that satisfies `P`. -/
def GoodIn (re : Regexp) (P : Str → Prop) (w s : Str) : Prop :=
  ∀ z, z <:+ w → z ≠ [] → ∀ m, matchAt re (z ++ s) = some m → P m.whole

/-- The captures of the matches of the link pattern, in markup order. -/
def linkCaptures (html : Str) : List Str :=
  (findAllStringSubmatch reLink html).map fun m => m.getD 1 []

/-- The elements of `xs` that are not in `seen`, each at its first occurrence. -/
def firstSeen : List Str → List Str → List Str
  | _, [] => []
  | seen, x :: xs => if x ∈ seen then firstSeen seen xs else x :: firstSeen (x :: seen) xs

/-! ## A sample world -/

/-- Go `stringContainsCTLByte` of `net/url`, the first check of `url.Parse`: the
string holds an ASCII control character. -/
def stringContainsCTLByte (s : Str) : Bool := s.any fun c => c.toNat < 0x20 || c.toNat == 0x7f

/-- SHA-256 of `http://abcdef.onion:8080/`. -/
def digestWithPort : List UInt8 :=
    [0xa2, 0xb6, 0x54, 0x73, 0xc1, 0xa2, 0x70, 0xb1, 0x83, 0x35, 0xb4, 0x43, 0xec, 0x6e,
     0x83, 0x3d, 0xff, 0x04, 0x89, 0xb4, 0x4c, 0x57, 0xef, 0xb8, 0x58, 0xa3, 0x6f, 0xec,
     0xda, 0x3b, 0x74, 0x53]

/-- SHA-256 of `http://abcdef.onion/`. -/
def digestPlain : List UInt8 :=
    [0xee, 0x56, 0x5d, 0x15, 0xbb, 0xe2, 0x59, 0x3e, 0x50, 0x08, 0x9d, 0xf8, 0x22, 0x62,
     0xfa, 0x85, 0xf5, 0x00, 0xad, 0xa5, 0x24, 0xcc, 0x59, 0x50, 0x8b, 0x0c, 0x19, 0x14,
     0xf8, 0xae, 0x82, 0x9a]

/-- A world to run the program in.  `urlParse` and `newRequest` refuse a
string with a control character, as `url.Parse` does, and read the host of a
URL of the form `http://host[:port]/path`; `sha256Sum` knows the two sample
URLs; the network and the browser are down. -/
def sampleEnv : Env where
  now := ⟨2024, 5, 17, 9, 3, 7, 123456789⟩
  urlParse := fun raw =>
    if stringContainsCTLByte raw then none
    else if "http://".toList.isPrefixOf raw then
      some ⟨(raw.drop 7).takeWhile fun c => !(c == '/')⟩
    else none
  sha256Sum := fun raw i =>
    if raw = "http://abcdef.onion:8080/".toList then digestWithPort.getD i.val 0
    else if raw = "http://abcdef.onion/".toList then digestPlain.getD i.val 0
    else 0
  unicodeToLower := Char.toLower
  newRequest := fun raw =>
    if stringContainsCTLByte raw then none else some ⟨"GET".toList, raw, []⟩
  clientDo := fun _ => .error "timeout".toList
  gzipNewReader := fun _ => .error "gzip: invalid header".toList
  flateNewReader := fun b => b
  chromedpRun := fun _ => .error "context deadline exceeded".toList

/-- A response without a Content-Encoding header. -/
def plainResponse : Response :=
  { statusCode := 200
    header := [("Content-Type".toList, ["text/html".toList])]
    body := .ok "<title>Test Page</title>".toList }

/-- A response with a Content-Encoding the program does not know. -/
def brotliResponse : Response :=
  { statusCode := 200
    header := [("Content-Encoding".toList, ["BR".toList])]
    body := .ok "<title>Test Page</title>".toList }

/-- Go `strings.EqualFold(s, t)` for a `t` of ASCII runes: the two strings agree
rune by rune under simple case folding. -/
def equalFold : Str → Str → Bool
  | [], [] => true
  | x :: s, c :: t => folded c x && equalFold s t
  | _, _ => false

/-- The header value `GZİP`, whose third rune is U+0130. -/
def dottedGzip : Str := ['G', 'Z', Char.ofNat 0x130, 'P']

/-- The sample world with the lower-casing of `unicode.ToLower` on the ASCII
runes and on U+0130, which it maps to `i`. -/
def dottedEnv : Env :=
  { sampleEnv with
    unicodeToLower := fun c => if c = Char.ofNat 0x130 then 'i' else c.toLower }

/-- A response that is not compressed and declares the encoding `GZİP`. -/
def dottedResponse : Response :=
  { statusCode := 200
    header := [("Content-Encoding".toList, [dottedGzip])]
    body := .ok "<title>Test Page</title>".toList }

/-! # Theorems -/

/-! ## Generic facts about the matcher -/

theorem replaceAllAux_succ (re : Regexp) (repl : Str) (fuel : Nat) (adj : Bool) (s : Str) :
    replaceAllAux re repl (fuel + 1) adj s =
      match matchAt re s with
      | some m =>
        if m.whole = [] then
          (if adj then [] else repl) ++
            (match s with
             | [] => []
             | c :: t => c :: replaceAllAux re repl fuel false t)
        else repl ++ replaceAllAux re repl fuel true m.rest
      | none =>
        match s with
        | [] => []
        | c :: t => c :: replaceAllAux re repl fuel false t := rfl

theorem findAllAux_succ (re : Regexp) (fuel : Nat) (adj : Bool) (s : Str) :
    findAllAux re (fuel + 1) adj s =
      match matchAt re s with
      | some m =>
        if m.whole = [] then
          (if adj then [] else [m]) ++
            (match s with
             | [] => []
             | _ :: t => findAllAux re fuel false t)
        else m :: findAllAux re fuel true m.rest
      | none =>
        match s with
        | [] => []
        | _ :: t => findAllAux re fuel false t := rfl

theorem matchMany_split (p : Char → Bool) (g inCap : Bool) (k : Str → Option Match)
    (hk : ∀ s m, k s = some m → s = m.whole ++ m.rest) :
    ∀ s m, matchMany p g inCap k s = some m → s = m.whole ++ m.rest := by
  intro s
  induction s with
  | nil => intro m h; exact hk _ _ (by simpa [matchMany] using h)
  | cons c t ih =>
    intro m h
    unfold matchMany at h
    by_cases hp : p c = true
    · simp only [hp, if_true] at h
      cases g with
      | true =>
        simp only [if_true] at h
        cases hr : matchMany p true inCap k t with
        | none => simp only [hr, Option.map_none'] at h; exact hk _ _ h
        | some m' =>
          simp only [hr, Option.map_some', Option.some.injEq] at h
          subst h
          simp [Match.push, ← ih m' hr]
      | false =>
        simp only [Bool.false_eq_true, if_false] at h
        cases hr : k (c :: t) with
        | some m' => simp only [hr, Option.some.injEq] at h; subst h; exact hk _ _ hr
        | none =>
          simp only [hr] at h
          cases hr2 : matchMany p false inCap k t with
          | none => simp [hr2] at h
          | some m' =>
            simp only [hr2, Option.map_some', Option.some.injEq] at h
            subst h
            simp [Match.push, ← ih m' hr2]
    · simp only [hp, Bool.false_eq_true, if_false] at h
      exact hk _ _ h

theorem matchItems_split : ∀ (re : Regexp) (inCap : Bool) (s : Str) (m : Match),
    matchItems re inCap s = some m → s = m.whole ++ m.rest := by
  intro re
  induction re with
  | nil => intro inCap s m h; simp [matchItems] at h; subst h; simp
  | cons it is ih =>
    intro inCap s m h
    cases it with
    | one p =>
      cases s with
      | nil => simp [matchItems] at h
      | cons c t =>
        simp only [matchItems] at h
        by_cases hp : p c = true
        · simp only [hp, if_true] at h
          cases hr : matchItems is inCap t with
          | none => simp [hr] at h
          | some m' =>
            simp only [hr, Option.map_some', Option.some.injEq] at h
            subst h
            simp [Match.push, ← ih inCap t m' hr]
        · simp [hp] at h
    | many p g =>
      simp only [matchItems] at h
      exact matchMany_split p g inCap _ (ih inCap) s m h
    | capOpen => simp only [matchItems] at h; exact ih _ _ _ h
    | capClose => simp only [matchItems] at h; exact ih _ _ _ h

theorem matchAt_split {re : Regexp} {s : Str} {m : Match} (h : matchAt re s = some m) :
    s = m.whole ++ m.rest := matchItems_split re false s m h

theorem NonEmpty.rest_lt {re : Regexp} (hne : NonEmpty re) {s : Str} {m : Match}
    (h : matchAt re s = some m) : m.rest.length < s.length := by
  have h1 := matchAt_split h
  have h2 := hne s m h
  have h3 : 0 < m.whole.length := List.length_pos.mpr h2
  rw [h1, List.length_append]; omega

theorem NonEmpty.nil {re : Regexp} (hne : NonEmpty re) : matchAt re [] = none := by
  cases h : matchAt re [] with
  | none => rfl
  | some m =>
    have h1 := matchAt_split h
    have h2 := hne _ m h
    have : m.whole = [] := by
      cases hw : m.whole with
      | nil => rfl
      | cons a b => rw [hw] at h1; simp at h1
    exact absurd this h2

theorem replaceAllAux_fuel {re : Regexp} (hne : NonEmpty re) (repl : Str) :
    ∀ (f f2 : Nat) (a a2 : Bool) (s : Str), s.length < f → s.length < f2 →
      replaceAllAux re repl f a s = replaceAllAux re repl f2 a2 s := by
  intro f
  induction f with
  | zero => intro f2 a a2 s h; omega
  | succ f ih =>
    intro f2 a a2 s h1 h2
    cases f2 with
    | zero => omega
    | succ f2 =>
      rw [replaceAllAux_succ, replaceAllAux_succ]
      cases hm : matchAt re s with
      | some m =>
        have hl := hne.rest_lt hm
        simp only [hne s m hm, if_false]
        rw [ih f2 true true m.rest (by omega) (by omega)]
      | none =>
        cases s with
        | nil => rfl
        | cons c t =>
          simp only
          simp only [List.length_cons] at h1 h2
          rw [ih f2 false false t (by omega) (by omega)]

theorem replaceAllString_nil {re : Regexp} (hne : NonEmpty re) (repl : Str) :
    replaceAllString re [] repl = [] := by
  simp [replaceAllString, replaceAllAux, hne.nil]

theorem replaceAllString_some {re : Regexp} (hne : NonEmpty re) (repl : Str) {s : Str}
    {m : Match} (h : matchAt re s = some m) :
    replaceAllString re s repl = repl ++ replaceAllString re m.rest repl := by
  have hl := hne.rest_lt h
  unfold replaceAllString
  rw [replaceAllAux_succ]
  simp only [h, hne s m h, if_false]
  rw [replaceAllAux_fuel hne repl s.length (m.rest.length + 1) true false m.rest hl (by omega)]

theorem replaceAllString_none {re : Regexp} (hne : NonEmpty re) (repl : Str) {c : Char}
    {t : Str} (h : matchAt re (c :: t) = none) :
    replaceAllString re (c :: t) repl = c :: replaceAllString re t repl := by
  unfold replaceAllString
  rw [replaceAllAux_succ]
  simp only [h]
  rw [replaceAllAux_fuel hne repl (c :: t).length (t.length + 1) false false t (by simp) (by omega)]

/-- Induction along a run of `ReplaceAllString`: `w` is the output written so
far, `s` the input still to be read. -/
theorem replaceAll_invariant {re : Regexp} (hne : NonEmpty re) (repl : Str)
    (Inv : Str → Str → Prop)
    (hnone : ∀ w c t, matchAt re (c :: t) = none → Inv w (c :: t) → Inv (w ++ [c]) t)
    (hsome : ∀ w s m, matchAt re s = some m → Inv w s → Inv (w ++ repl) m.rest) :
    ∀ (n : Nat) (s w : Str), s.length ≤ n → Inv w s →
      Inv (w ++ replaceAllString re s repl) [] := by
  intro n
  induction n with
  | zero =>
    intro s w hl hi
    have : s = [] := List.length_eq_zero.mp (by omega)
    subst this
    simpa [replaceAllString_nil hne] using hi
  | succ n ih =>
    intro s w hl hi
    cases hm : matchAt re s with
    | some m =>
      have hlt := hne.rest_lt hm
      rw [replaceAllString_some hne repl hm, ← List.append_assoc]
      exact ih m.rest (w ++ repl) (by omega) (hsome w s m hm hi)
    | none =>
      cases s with
      | nil => simpa [replaceAllString_nil hne] using hi
      | cons c t =>
        rw [replaceAllString_none hne repl hm]
        have := ih t (w ++ [c]) (by simpa using hl) (hnone w c t hm hi)
        simpa using this

theorem reHref_eq : reHref = attrRe hrefClasses := rfl

theorem reSrc_eq : reSrc = attrRe srcClasses := rfl

theorem matchItems_one_cons (p : Char → Bool) (is : Regexp) (inCap : Bool) (c : Char)
    (t : Str) : matchItems (.one p :: is) inCap (c :: t) =
      if p c then (matchItems is inCap t).map (Match.push inCap c) else none := rfl

theorem matchItems_one_nil (p : Char → Bool) (is : Regexp) (inCap : Bool) :
    matchItems (.one p :: is) inCap [] = none := rfl

theorem matchItems_many (p : Char → Bool) (g : Bool) (is : Regexp) (inCap : Bool) (s : Str) :
    matchItems (.many p g :: is) inCap s = matchMany p g inCap (matchItems is inCap) s := rfl

theorem takeWhile_append_all {p : Char → Bool} {v : Str} (x : Str)
    (h : ∀ c ∈ v, p c = true) : (v ++ x).takeWhile p = v ++ x.takeWhile p := by
  induction v with
  | nil => rfl
  | cons a v ih =>
    have ha : p a = true := h a (by simp)
    simp [List.takeWhile, ha, ih (fun c hc => h c (by simp [hc]))]

theorem dropWhile_append_all {p : Char → Bool} {v : Str} (x : Str)
    (h : ∀ c ∈ v, p c = true) : (v ++ x).dropWhile p = x.dropWhile p := by
  induction v with
  | nil => rfl
  | cons a v ih =>
    have ha : p a = true := h a (by simp)
    simp [List.dropWhile, ha, ih (fun c hc => h c (by simp [hc]))]

theorem takeWhile_append_stop {p : Char → Bool} {v : Str} (x : Str)
    (h : ∃ c ∈ v, p c = false) : (v ++ x).takeWhile p = v.takeWhile p := by
  induction v with
  | nil => simp at h
  | cons a v ih =>
    by_cases ha : p a = true
    · have h2 : ∃ c ∈ v, p c = false := by
        obtain ⟨c, hc, hpc⟩ := h
        rcases List.mem_cons.mp hc with rfl | hc
        · simp [ha] at hpc
        · exact ⟨c, hc, hpc⟩
      simp [List.takeWhile, ha, ih h2]
    · simp [List.takeWhile, ha]

theorem dropWhile_append_stop {p : Char → Bool} {v : Str} (x : Str)
    (h : ∃ c ∈ v, p c = false) : (v ++ x).dropWhile p = v.dropWhile p ++ x := by
  induction v with
  | nil => simp at h
  | cons a v ih =>
    by_cases ha : p a = true
    · have h2 : ∃ c ∈ v, p c = false := by
        obtain ⟨c, hc, hpc⟩ := h
        rcases List.mem_cons.mp hc with rfl | hc
        · simp [ha] at hpc
        · exact ⟨c, hc, hpc⟩
      simp [List.dropWhile, ha, ih h2]
    · simp [List.dropWhile, ha]

theorem all_or_stop (p : Char → Bool) (v : Str) :
    (∀ c ∈ v, p c = true) ∨ ∃ c ∈ v, p c = false := by
  by_cases h : ∀ c ∈ v, p c = true
  · exact Or.inl h
  · right
    push_neg at h
    obtain ⟨c, hc, hpc⟩ := h
    exact ⟨c, hc, by simpa using hpc⟩

/-- The greedy run of non-quotes before the closing quote. -/
theorem matchMany_closing (t : Str) :
    matchMany notQuote true false (matchItems [.one isQuote] false) t =
      match t.dropWhile notQuote with
      | [] => none
      | q2 :: rest => some ⟨t.takeWhile notQuote ++ [q2], [], rest⟩ := by
  induction t with
  | nil => rfl
  | cons c t ih =>
    unfold matchMany
    by_cases hc : notQuote c = true
    · have hq : isQuote c = false := by simpa [notQuote] using hc
      simp only [hc, if_true, ih, List.dropWhile, List.takeWhile]
      cases hd : t.dropWhile notQuote with
      | nil => simp [matchItems, hq]
      | cons q2 rest => simp [Match.push]
    · have hq : isQuote c = true := by simpa [notQuote] using hc
      simp [hc, List.dropWhile, List.takeWhile, matchItems, hq, Match.push]

theorem matchItems_attrTail (v : Str) : matchItems attrTail false v = attrValue v := by
  cases v with
  | nil => rfl
  | cons q t =>
    unfold attrTail attrValue
    rw [matchItems_one_cons]
    by_cases hq : isQuote q = true
    · simp only [hq, if_true]
      cases t with
      | nil => rfl
      | cons c t =>
        rw [matchItems_one_cons]
        by_cases hc : notQuote c = true
        · rw [matchItems_many, matchMany_closing]
          simp only [hc, if_true, List.dropWhile, List.takeWhile]
          cases hd : t.dropWhile notQuote with
          | nil => rfl
          | cons q2 rest => simp [Match.push]
        · simp [hc, List.dropWhile, List.takeWhile]
    · simp [hq]

theorem attrValue_cons (q : Char) (t : Str) : attrValue (q :: t) =
    if isQuote q then
      match t.dropWhile notQuote with
      | [] => none
      | q2 :: rest =>
        if t.takeWhile notQuote = [] then none
        else some ⟨q :: (t.takeWhile notQuote ++ [q2]), [], rest⟩
    else none := rfl

theorem attrRe_cons (p : Char → Bool) (ps : List (Char → Bool)) (c : Char) (t : Str) :
    matchItems (attrRe (p :: ps)) false (c :: t) =
      if p c then (matchItems (attrRe ps) false t).map (Match.push false c) else none := rfl

theorem attrValue_whole_ne {v : Str} {m : Match} (h : attrValue v = some m) :
    m.whole ≠ [] := by
  cases v with
  | nil => simp [attrValue] at h
  | cons q t =>
    rw [attrValue_cons] at h
    by_cases hq : isQuote q = true
    · simp only [hq, if_true] at h
      cases hd : t.dropWhile notQuote with
      | nil => simp [hd] at h
      | cons q2 r =>
        simp only [hd] at h
        by_cases he : List.takeWhile notQuote t = []
        · simp [he] at h
        · simp only [he, if_false, Option.some.injEq] at h; subst h; simp
    · simp [hq] at h

theorem attrRe_nonEmpty_aux : ∀ (ps : List (Char → Bool)) (s : Str) (m : Match),
    matchItems (attrRe ps) false s = some m → m.whole ≠ [] := by
  intro ps
  induction ps with
  | nil =>
    intro s m h
    exact attrValue_whole_ne (by rw [← matchItems_attrTail]; exact h)
  | cons p ps ih =>
    intro s m h
    cases s with
    | nil => simp [attrRe, matchItems] at h
    | cons c t =>
      rw [attrRe_cons] at h
      by_cases hp : p c = true
      · simp only [hp, if_true] at h
        cases hr : matchItems (attrRe ps) false t with
        | none => simp [hr] at h
        | some m0 =>
          simp only [hr, Option.map_some', Option.some.injEq] at h
          subst h; simp [Match.push]
      · simp [hp] at h

theorem attrRe_nonEmpty (ps : List (Char → Bool)) : NonEmpty (attrRe ps) :=
  fun s m h => attrRe_nonEmpty_aux ps s m h

theorem attrRe_first {p : Char → Bool} {ps : List (Char → Bool)} {c : Char} (t : Str)
    (h : p c = false) : matchAt (attrRe (p :: ps)) (c :: t) = none := by
  rw [matchAt, attrRe_cons]; simp [h]

theorem attrRe_nil (ps : List (Char → Bool)) : matchAt (attrRe ps) [] = none :=
  (attrRe_nonEmpty ps).nil

/-- Replacing, after any text `w2`, a string `M` that runs from a non-quote to
its first quote by a string that starts with `n0`, a rune no class of the
pattern accepts: a match on the new text is a match on the old one, with the
same matched text or with one that swallows the head of `M`. -/
theorem attr_replace (n0 : Char) (N1 rest u M1 : Str) (q : Char)
    (hn0 : isQuote n0 = false) (hu : u ≠ []) (hu2 : ∀ c ∈ u, notQuote c = true)
    (hq : isQuote q = true) :
    ∀ (ps : List (Char → Bool)), (∀ p ∈ ps, p n0 = false) → ∀ (w2 : Str) (m1 : Match),
      matchItems (attrRe ps) false (w2 ++ n0 :: N1 ++ rest) = some m1 →
      ∃ m, matchItems (attrRe ps) false (w2 ++ (u ++ q :: M1) ++ rest) = some m ∧
        (m.whole = m1.whole ∨ ps.length + 1 + (u.length + 1) ≤ m.whole.length) := by
  have hqn : notQuote q = false := by simp [notQuote, hq]
  intro ps
  induction ps with
  | nil =>
    intro _ w2 m1 h
    simp only [attrRe, List.map_nil, List.nil_append, matchItems_attrTail] at h ⊢
    cases w2 with
    | nil =>
      change attrValue (n0 :: (N1 ++ rest)) = some m1 at h
      rw [attrValue_cons] at h
      simp [hn0] at h
    | cons q1 v =>
      change attrValue (q1 :: (v ++ n0 :: N1 ++ rest)) = some m1 at h
      change ∃ m, attrValue (q1 :: (v ++ (u ++ q :: M1) ++ rest)) = some m ∧ _
      rw [attrValue_cons] at h ⊢
      by_cases hq1 : isQuote q1 = true
      · simp only [hq1, if_true] at h ⊢
        rcases all_or_stop notQuote v with hall | hstop
        · -- the value ran through all of `v`: on the old text it closes in `M`
          have e1 : List.dropWhile notQuote (v ++ (u ++ q :: M1) ++ rest) = q :: (M1 ++ rest) := by
            rw [List.append_assoc, dropWhile_append_all _ hall, List.append_assoc,
              dropWhile_append_all _ hu2]
            simp [List.dropWhile, hqn]
          have e2 : List.takeWhile notQuote (v ++ (u ++ q :: M1) ++ rest) = v ++ u := by
            rw [List.append_assoc, takeWhile_append_all _ hall, List.append_assoc,
              takeWhile_append_all _ hu2]
            simp [List.takeWhile, hqn]
          rw [e1, e2]
          have hne : v ++ u ≠ [] := by simp [hu]
          simp only [hne, if_false]
          refine ⟨_, rfl, Or.inr ?_⟩
          simp; omega
        · have e1 : List.dropWhile notQuote (v ++ (u ++ q :: M1) ++ rest)
              = List.dropWhile notQuote v ++ ((u ++ q :: M1) ++ rest) := by
            rw [List.append_assoc, dropWhile_append_stop _ hstop]
          have e2 : List.takeWhile notQuote (v ++ (u ++ q :: M1) ++ rest)
              = List.takeWhile notQuote v := by
            rw [List.append_assoc, takeWhile_append_stop _ hstop]
          have e3 : List.dropWhile notQuote (v ++ n0 :: N1 ++ rest)
              = List.dropWhile notQuote v ++ (n0 :: N1 ++ rest) := by
            rw [List.append_assoc, dropWhile_append_stop _ hstop]
          have e4 : List.takeWhile notQuote (v ++ n0 :: N1 ++ rest)
              = List.takeWhile notQuote v := by
            rw [List.append_assoc, takeWhile_append_stop _ hstop]
          rw [e3, e4] at h
          rw [e1, e2]
          cases hd : List.dropWhile notQuote v with
          | nil =>
            exfalso
            obtain ⟨c, hc, hpc⟩ := hstop
            have := List.dropWhile_eq_nil_iff.mp hd c hc
            simp [hpc] at this
          | cons q2 r =>
            rw [hd] at h
            simp only [List.cons_append] at h ⊢
            by_cases hemp : List.takeWhile notQuote v = []
            · simp [hemp] at h
            · simp only [hemp, if_false, Option.some.injEq] at h ⊢
              subst h
              exact ⟨_, rfl, Or.inl rfl⟩
      · simp [hq1] at h
  | cons p ps ih =>
    intro hC w2 m1 h
    have hp0 : p n0 = false := hC p (by simp)
    cases w2 with
    | nil =>
      change matchItems (attrRe (p :: ps)) false (n0 :: (N1 ++ rest)) = some m1 at h
      rw [attrRe_cons] at h
      simp [hp0] at h
    | cons c w =>
      change matchItems (attrRe (p :: ps)) false (c :: (w ++ n0 :: N1 ++ rest)) = some m1 at h
      change ∃ m, matchItems (attrRe (p :: ps)) false (c :: (w ++ (u ++ q :: M1) ++ rest))
        = some m ∧ _
      rw [attrRe_cons] at h ⊢
      by_cases hp : p c = true
      · simp only [hp, if_true] at h ⊢
        cases hr : matchItems (attrRe ps) false (w ++ n0 :: N1 ++ rest) with
        | none => rw [hr] at h; simp at h
        | some m0 =>
          simp only [hr, Option.map_some', Option.some.injEq] at h
          obtain ⟨m, hm, hcase⟩ := ih (fun p hp => hC p (by simp [hp])) w m0 hr
          refine ⟨m.push false c, ?_, ?_⟩
          · rw [hm]; rfl
          · subst h
            rcases hcase with h1 | h1
            · left; simp [Match.push, h1]
            · right; simp [Match.push]; omega
      · simp [hp] at h

theorem suffix_append_cases {y a b : Str} (h : y <:+ a ++ b) :
    y <:+ b ∨ ∃ z, z <:+ a ∧ z ≠ [] ∧ y = z ++ b := by
  induction a with
  | nil => left; simpa using h
  | cons c a ih =>
    rw [List.cons_append, List.suffix_cons_iff] at h
    rcases h with h | h
    · right; exact ⟨c :: a, List.suffix_refl _, by simp, h⟩
    · rcases ih h with h1 | ⟨z, hz, hne, rfl⟩
      · exact Or.inl h1
      · exact Or.inr ⟨z, hz.trans (List.suffix_cons _ _), hne, rfl⟩

theorem goodIn_nil {re : Regexp} {P : Str → Prop} {x : Str} (hnil : matchAt re [] = none)
    (h : GoodIn re P x []) : Good re P x := by
  intro y hy m hm
  cases y with
  | nil => rw [hnil] at hm; cases hm
  | cons c t =>
    have := h (c :: t) hy (by simp) m
    rw [List.append_nil] at this
    exact this hm

theorem goodIn_step_none {re : Regexp} {P : Str → Prop} {w : Str} {c : Char} {t : Str}
    (hm : matchAt re (c :: t) = none) (h : GoodIn re P w (c :: t)) :
    GoodIn re P (w ++ [c]) t := by
  intro z hz hne m hzm
  rcases suffix_append_cases hz with h1 | ⟨z1, hz1, hne1, rfl⟩
  · -- `z` is the single rune `c`
    rw [List.suffix_cons_iff] at h1
    rcases h1 with rfl | h1
    · rw [List.singleton_append, hm] at hzm; cases hzm
    · exact absurd (List.suffix_nil.mp h1) hne
  · rw [List.append_assoc, List.singleton_append] at hzm
    exact h z1 hz1 hne1 m hzm

/-- Shape of the matched text of an attribute pattern: the literal, made of
non-quotes, then a quote. -/
theorem attrRe_shape : ∀ (ps : List (Char → Bool)),
    (∀ p ∈ ps, ∀ c, p c = true → notQuote c = true) → ∀ (s : Str) (m : Match),
    matchItems (attrRe ps) false s = some m →
    ∃ u q M1, m.whole = u ++ q :: M1 ∧ u.length = ps.length ∧
      (∀ c ∈ u, notQuote c = true) ∧ isQuote q = true := by
  intro ps
  induction ps with
  | nil =>
    intro _ s m h
    simp only [attrRe, List.map_nil, List.nil_append, matchItems_attrTail] at h
    cases s with
    | nil => simp [attrValue] at h
    | cons q t =>
      rw [attrValue_cons] at h
      by_cases hq : isQuote q = true
      · simp only [hq, if_true] at h
        cases hd : t.dropWhile notQuote with
        | nil => simp [hd] at h
        | cons q2 r =>
          simp only [hd] at h
          by_cases he : List.takeWhile notQuote t = []
          · simp [he] at h
          · simp only [he, if_false, Option.some.injEq] at h
            subst h
            exact ⟨[], q, _, rfl, rfl, by simp, hq⟩
      · simp [hq] at h
  | cons p ps ih =>
    intro hps s m h
    cases s with
    | nil => simp [attrRe, matchItems] at h
    | cons c t =>
      rw [attrRe_cons] at h
      by_cases hp : p c = true
      · simp only [hp, if_true] at h
        cases hr : matchItems (attrRe ps) false t with
        | none => rw [hr] at h; simp at h
        | some m0 =>
          rw [hr] at h
          simp only [Option.map_some', Option.some.injEq] at h
          obtain ⟨u, q, M1, hw, hlen, hu, hq⟩ :=
            ih (fun p hp => hps p (by simp [hp])) t m0 hr
          subst h
          refine ⟨c :: u, q, M1, by simp [Match.push, hw], by simp [hlen], ?_, hq⟩
          intro x hx
          rcases List.mem_cons.mp hx with rfl | hx
          · exact hps p (by simp) _ hp
          · exact hu x hx
      · simp [hp] at h

/-- A match of pattern `p0 :: ps` that starts before a replaced match of
pattern `psX` was already there before the replacement, with the same text or
a text that is long. -/
theorem transfer (psX ps : List (Char → Bool)) (p0 : Char → Bool) (n0 : Char) (N1 : Str)
    (hquoteX : ∀ p ∈ psX, ∀ c, p c = true → notQuote c = true) (hXne : psX ≠ [])
    (hn0q : isQuote n0 = false) (hC : ∀ p ∈ ps, p n0 = false)
    {s : Str} {mX : Match} (hX : matchAt (attrRe psX) s = some mX)
    {z : Str} (hz : z ≠ []) {m1 : Match}
    (h1 : matchAt (attrRe (p0 :: ps)) (z ++ (n0 :: N1) ++ mX.rest) = some m1) :
    ∃ m0, matchAt (attrRe (p0 :: ps)) (z ++ s) = some m0 ∧
      (m0.whole = m1.whole ∨ ps.length + psX.length + 3 ≤ m0.whole.length) := by
  obtain ⟨u, q, M1, hw, hlen, hu, hq⟩ := attrRe_shape psX hquoteX s mX hX
  have hs : s = (u ++ q :: M1) ++ mX.rest := by rw [← hw]; exact matchAt_split hX
  have hune : u ≠ [] := by
    intro h; rw [h] at hlen
    exact hXne (List.length_eq_zero.mp hlen.symm)
  cases z with
  | nil => exact absurd rfl hz
  | cons c w =>
    change matchItems (attrRe (p0 :: ps)) false (c :: (w ++ n0 :: N1 ++ mX.rest)) = some m1 at h1
    rw [attrRe_cons] at h1
    rw [hs, List.cons_append, ← List.append_assoc]
    simp only [matchAt]
    rw [attrRe_cons]
    by_cases hp : p0 c = true
    · simp only [hp, if_true] at h1 ⊢
      cases hr : matchItems (attrRe ps) false (w ++ n0 :: N1 ++ mX.rest) with
      | none => rw [hr] at h1; simp at h1
      | some m2 =>
        rw [hr] at h1
        simp only [Option.map_some', Option.some.injEq] at h1
        obtain ⟨m, hm, hcase⟩ :=
          attr_replace n0 N1 mX.rest u M1 q hn0q hune hu hq ps hC w m2 hr
        refine ⟨m.push false c, by rw [hm]; rfl, ?_⟩
        subst h1
        rcases hcase with h | h
        · left; simp [Match.push, h]
        · right; simp [Match.push]; omega
    · simp [hp] at h1

theorem goodIn_empty (re : Regexp) (P : Str → Prop) (s : Str) : GoodIn re P [] s := by
  intro z hz hne
  exact absurd (List.suffix_nil.mp hz) hne

/-- Replacing the matches of an attribute pattern by `n0 :: N1` leaves no
match of the same pattern but those that satisfy `P`. -/
theorem self_replace (p0 : Char → Bool) (ps : List (Char → Bool)) (n0 : Char) (N1 : Str)
    (P : Str → Prop)
    (hquote : ∀ p ∈ p0 :: ps, ∀ c, p c = true → notQuote c = true)
    (hn0q : isQuote n0 = false) (hC : ∀ p ∈ ps, p n0 = false)
    (hN1 : ∀ c ∈ N1, p0 c = false)
    (hself : ∀ rest m, matchAt (attrRe (p0 :: ps)) ((n0 :: N1) ++ rest) = some m → P m.whole)
    (hlong : ∀ w, P w → w.length < ps.length + (p0 :: ps).length + 3) (s : Str) :
    Good (attrRe (p0 :: ps)) P (replaceAllString (attrRe (p0 :: ps)) s (n0 :: N1)) := by
  have hne := attrRe_nonEmpty (p0 :: ps)
  refine goodIn_nil hne.nil ?_
  have := replaceAll_invariant hne (n0 :: N1) (GoodIn (attrRe (p0 :: ps)) P)
    (fun w c t hm h => goodIn_step_none hm h) ?_ s.length s [] (Nat.le_refl _) (goodIn_empty _ _ _)
  · simpa using this
  · intro w s m hm hin z hz hzne m1 hm1
    rcases suffix_append_cases hz with h1 | ⟨z1, hz1, hne1, rfl⟩
    · rw [List.suffix_cons_iff] at h1
      rcases h1 with rfl | h1
      · exact hself _ _ hm1
      · cases z with
        | nil => exact absurd rfl hzne
        | cons c z2 =>
          have hc : c ∈ N1 := h1.subset (by simp)
          rw [List.cons_append, attrRe_first _ (hN1 c hc)] at hm1
          cases hm1
    · obtain ⟨m0, hm0, hcase⟩ :=
        transfer (p0 :: ps) ps p0 n0 N1 hquote (by simp) hn0q hC hm hne1 hm1
      have hP := hin z1 hz1 hne1 m0 hm0
      rcases hcase with h | h
      · rw [← h]; exact hP
      · have := hlong _ hP
        omega

/-- Replacing the matches of an attribute pattern `psX` by `n0 :: N1` brings
no new match of another attribute pattern `p0 :: ps`. -/
theorem cross_replace (psX : List (Char → Bool)) (p0 : Char → Bool)
    (ps : List (Char → Bool)) (n0 : Char) (N1 : Str) (P : Str → Prop)
    (hquoteX : ∀ p ∈ psX, ∀ c, p c = true → notQuote c = true) (hXne : psX ≠ [])
    (hn0q : isQuote n0 = false) (hC : ∀ p ∈ ps, p n0 = false)
    (hN : ∀ c ∈ n0 :: N1, p0 c = false)
    (hlong : ∀ w, P w → w.length < ps.length + psX.length + 3) (x : Str)
    (hx : Good (attrRe (p0 :: ps)) P x) :
    Good (attrRe (p0 :: ps)) P (replaceAllString (attrRe psX) x (n0 :: N1)) := by
  have hne := attrRe_nonEmpty psX
  have := replaceAll_invariant hne (n0 :: N1) (fun w s => Good (attrRe (p0 :: ps)) P (w ++ s))
    ?_ ?_ x.length x [] (Nat.le_refl _) (by simpa using hx)
  · simpa using this
  · intro w c t _ h
    simpa using h
  · intro w s m hm hin y hy m1 hm1
    have hs := matchAt_split hm
    rcases suffix_append_cases hy with h1 | ⟨z, hz, hzne, rfl⟩
    · refine hin y (h1.trans ?_) m1 hm1
      rw [hs, ← List.append_assoc]
      exact List.suffix_append _ _
    · rcases suffix_append_cases hz with h2 | ⟨z1, hz1, hne1, rfl⟩
      · cases z with
        | nil => exact absurd rfl hzne
        | cons c z2 =>
          have hc : c ∈ n0 :: N1 := h2.subset (by simp)
          rw [List.cons_append, attrRe_first _ (hN c hc)] at hm1
          cases hm1
      · obtain ⟨m0, hm0, hcase⟩ :=
          transfer psX ps p0 n0 N1 hquoteX hXne hn0q hC hm hne1 hm1
        have hsuf : z1 ++ s <:+ w ++ s := by
          obtain ⟨a, ha⟩ := hz1
          exact ⟨a, by rw [← ha, List.append_assoc]⟩
        have hP := hin (z1 ++ s) hsuf m0 hm0
        rcases hcase with h | h
        · rw [← h]; exact hP
        · have := hlong _ hP
          omega

theorem folded_notQuote (l : Char) (hl : folded l '"' = false) (hl2 : folded l apos = false)
    (c : Char) (h : folded l c = true) : notQuote c = true := by
  by_contra hc
  have hq : c = '"' ∨ c = apos := by
    by_cases h1 : c = '"'
    · exact Or.inl h1
    · right
      by_contra h2
      exact hc (by simp [notQuote, isQuote, h1, h2])
  rcases hq with rfl | rfl
  · rw [hl] at h; cases h
  · rw [hl2] at h; cases h

theorem hrefClasses_notQuote : ∀ p ∈ hrefClasses, ∀ c, p c = true → notQuote c = true := by
  intro p hp
  simp only [hrefClasses, List.mem_cons, List.mem_singleton, List.not_mem_nil, or_false] at hp
  rcases hp with rfl | rfl | rfl | rfl | rfl <;>
    exact folded_notQuote _ (by decide) (by decide)

theorem srcClasses_notQuote : ∀ p ∈ srcClasses, ∀ c, p c = true → notQuote c = true := by
  intro p hp
  simp only [srcClasses, List.mem_cons, List.mem_singleton, List.not_mem_nil, or_false] at hp
  rcases hp with rfl | rfl | rfl | rfl <;>
    exact folded_notQuote _ (by decide) (by decide)

theorem hrefRepl_eq : hrefRepl = ['h', 'r', 'e', 'f', '=', '"', '#', '"'] := by decide

theorem srcRepl_eq : srcRepl = ['s', 'r', 'c', '=', '"', '"'] := by decide

theorem matchAt_hrefRepl (rest : Str) :
    matchAt reHref (hrefRepl ++ rest) = some ⟨hrefRepl, [], rest⟩ := by
  have h1 : folded 'h' 'h' = true := by decide
  have h2 : folded 'r' 'r' = true := by decide
  have h3 : folded 'e' 'e' = true := by decide
  have h4 : folded 'f' 'f' = true := by decide
  have h5 : folded '=' '=' = true := by decide
  have h6 : isQuote '"' = true := by decide
  have h7 : notQuote '#' = true := by decide
  have h8 : notQuote '"' = false := by decide
  rw [reHref_eq, hrefRepl_eq, matchAt, hrefClasses]
  simp only [List.cons_append, attrRe_cons, h1, h2, h3, h4, h5, if_true]
  simp [attrRe, matchItems_attrTail, attrValue_cons, h6, h7, h8, List.dropWhile,
    List.takeWhile, Match.push]

/-- After the href rewrite, the pattern matches nowhere but on the placeholder. -/
theorem good_href_rewrite (s : Str) :
    Good reHref (fun w => w = hrefRepl) (replaceAllString reHref s hrefRepl) := by
  rw [reHref_eq, hrefRepl_eq]
  refine self_replace (folded 'h') [folded 'r', folded 'e', folded 'f', folded '=']
    'h' ['r', 'e', 'f', '=', '"', '#', '"'] _ hrefClasses_notQuote (by decide) (by decide)
    (by decide) ?_ ?_ s
  · intro rest m hm
    have := matchAt_hrefRepl rest
    rw [reHref_eq, hrefRepl_eq, hrefClasses] at this
    rw [this] at hm
    simp only [Option.some.injEq] at hm
    rw [← hm]
  · intro w hw; rw [hw]; decide

/-- The src rewrite keeps what the href rewrite achieved. -/
theorem good_href_after_src (x : Str) (hx : Good reHref (fun w => w = hrefRepl) x) :
    Good reHref (fun w => w = hrefRepl) (replaceAllString reSrc x srcRepl) := by
  rw [reSrc_eq, srcRepl_eq]
  rw [reHref_eq] at hx ⊢
  refine cross_replace srcClasses (folded 'h') [folded 'r', folded 'e', folded 'f', folded '=']
    's' ['r', 'c', '=', '"', '"'] _ srcClasses_notQuote (by simp [srcClasses]) (by decide)
    (by decide) (by decide) ?_ x hx
  intro w hw; rw [hw]; decide

/-- Text in front in which the pattern cannot start brings no match. -/
theorem good_prepend {p0 : Char → Bool} {ps : List (Char → Bool)} {P : Str → Prop}
    (pre : Str) {x : Str} (hpre : ∀ c ∈ pre, p0 c = false)
    (h : Good (attrRe (p0 :: ps)) P x) : Good (attrRe (p0 :: ps)) P (pre ++ x) := by
  intro y hy m hm
  rcases suffix_append_cases hy with h1 | ⟨z, hz, hzne, rfl⟩
  · exact h y h1 m hm
  · cases z with
    | nil => exact absurd rfl hzne
    | cons c z2 =>
      have hc : c ∈ pre := hz.subset (by simp)
      rw [List.cons_append, attrRe_first _ (hpre c hc)] at hm
      cases hm

theorem noticeLine_no_h : ∀ c ∈ notice ++ "\n".toList, folded 'h' c = false := by decide

/-- In the output of `sanitizeHTML` the href pattern matches only on the
placeholder. -/
theorem sanitizeHTML_good_href (m : Str) :
    Good reHref (fun w => w = hrefRepl) (sanitizeHTML m) := by
  have h1 := good_href_after_src _ (good_href_rewrite (replaceAllString reBase m []))
  rw [reHref_eq] at h1 ⊢
  exact good_prepend (notice ++ "\n".toList) noticeLine_no_h h1

theorem mem_findAllAux {re : Regexp} : ∀ (fuel : Nat) (adj : Bool) (s : Str) (mt : Match),
    mt ∈ findAllAux re fuel adj s → ∃ y, y <:+ s ∧ matchAt re y = some mt := by
  intro fuel
  induction fuel with
  | zero => intro adj s mt h; simp [findAllAux] at h
  | succ fuel ih =>
    intro adj s mt h
    rw [findAllAux_succ] at h
    cases hm : matchAt re s with
    | some m =>
      rw [hm] at h
      simp only at h
      by_cases hw : m.whole = []
      · simp only [hw, if_true, List.mem_append] at h
        rcases h with h | h
        · have : mt = m := by
            cases adj <;> simp at h
            exact h
          subst this
          exact ⟨s, List.suffix_refl _, hm⟩
        · cases s with
          | nil => simp at h
          | cons c t =>
            obtain ⟨y, hy, hym⟩ := ih false t mt h
            exact ⟨y, hy.trans (List.suffix_cons c t), hym⟩
      · simp only [hw, if_false, List.mem_cons] at h
        rcases h with h | h
        · subst h; exact ⟨s, List.suffix_refl _, hm⟩
        · obtain ⟨y, hy, hym⟩ := ih true m.rest mt h
          exact ⟨y, hy.trans ⟨m.whole, (matchAt_split hm).symm⟩, hym⟩
    | none =>
      rw [hm] at h
      cases s with
      | nil => simp at h
      | cons c t =>
        obtain ⟨y, hy, hym⟩ := ih false t mt h
        exact ⟨y, hy.trans (List.suffix_cons c t), hym⟩

theorem mem_findAll {re : Regexp} {s : Str} {mt : Match} (h : mt ∈ findAll re s) :
    ∃ y, y <:+ s ∧ matchAt re y = some mt := mem_findAllAux _ _ _ _ h

/-! ## The link pattern -/

theorem matchItems_capOpen (is : Regexp) (inCap : Bool) (s : Str) :
    matchItems (.capOpen :: is) inCap s = matchItems is true s := rfl

theorem matchItems_capClose (is : Regexp) (inCap : Bool) (s : Str) :
    matchItems (.capClose :: is) inCap s = matchItems is false s := rfl

theorem exact_iff (a c : Char) : exact a c = true ↔ c = a := by simp [exact]

/-- A case-sensitive literal in front of a pattern. -/
theorem matchItems_lit : ∀ (cs : List Char) (is : Regexp) (inCap : Bool) (s : Str) (m : Match),
    matchItems (cs.map (fun c => Item.one (exact c)) ++ is) inCap s = some m ↔
      ∃ t m1, s = cs ++ t ∧ matchItems is inCap t = some m1 ∧
        m = ⟨cs ++ m1.whole, if inCap then cs ++ m1.cap else m1.cap, m1.rest⟩ := by
  intro cs
  induction cs with
  | nil =>
    intro is inCap s m
    constructor
    · intro h; exact ⟨s, m, rfl, h, by cases inCap <;> rfl⟩
    · rintro ⟨t, m1, rfl, h, rfl⟩
      cases inCap <;> simpa using h
  | cons a cs ih =>
    intro is inCap s m
    cases s with
    | nil => simp [matchItems_one_nil]
    | cons c t =>
      rw [List.map_cons, List.cons_append, matchItems_one_cons]
      by_cases hc : c = a
      · subst hc
        simp only [exact, beq_self_eq_true, if_true, Option.map_eq_some']
        constructor
        · rintro ⟨m0, h0, rfl⟩
          obtain ⟨t1, m1, rfl, h1, rfl⟩ := (ih is inCap t m0).mp h0
          refine ⟨t1, m1, rfl, h1, ?_⟩
          cases inCap <;> simp [Match.push]
        · rintro ⟨t1, m1, hs, h1, rfl⟩
          simp only [List.cons_append, List.cons.injEq, true_and] at hs
          subst hs
          refine ⟨_, (ih is inCap _ _).mpr ⟨t1, m1, rfl, h1, rfl⟩, ?_⟩
          cases inCap <;> simp [Match.push]
      · have : exact a c = false := by simp [exact, hc]
        simp only [this, Bool.false_eq_true, if_false]
        constructor
        · intro h; cases h
        · rintro ⟨t1, m1, hs, _, _⟩
          simp only [List.cons_append, List.cons.injEq] at hs
          exact absurd hs.1 hc

/-- The greedy run of non-quotes that ends capture group 1 and the pattern. -/
theorem matchMany_capture (t : Str) :
    matchMany notQuote true true (matchItems [.capClose] true) t =
      some ⟨t.takeWhile notQuote, t.takeWhile notQuote, t.dropWhile notQuote⟩ := by
  induction t with
  | nil => rfl
  | cons c t ih =>
    unfold matchMany
    by_cases hc : notQuote c = true
    · simp [hc, ih, List.takeWhile, List.dropWhile, Match.push]
    · simp [hc, List.takeWhile, List.dropWhile, matchItems]

/-- Closed form of a match of the link pattern. -/
theorem reLink_match (s : Str) (m : Match) :
    matchAt reLink s = some m ↔
      ∃ q c t, s = "href=".toList ++ q :: ("http".toList ++ c :: t) ∧ isQuote q = true ∧
        notQuote c = true ∧
        m = ⟨"href=".toList ++ q :: ("http".toList ++ c :: t.takeWhile notQuote),
             "http".toList ++ c :: t.takeWhile notQuote, t.dropWhile notQuote⟩ := by
  have hre : reLink = "href=".toList.map (fun c => Item.one (exact c)) ++
      (Item.one isQuote :: Item.capOpen :: ("http".toList.map (fun c => Item.one (exact c)) ++
        [.one notQuote, .many notQuote true, .capClose])) := by
    simp [reLink, lit]
  rw [matchAt, hre, matchItems_lit]
  constructor
  · rintro ⟨t1, m1, rfl, h1, rfl⟩
    cases t1 with
    | nil => simp [matchItems_one_nil] at h1
    | cons q t2 =>
      rw [matchItems_one_cons] at h1
      by_cases hq : isQuote q = true
      · simp only [hq, if_true, Option.map_eq_some', matchItems_capOpen] at h1
        obtain ⟨m2, h2, rfl⟩ := h1
        obtain ⟨t3, m3, rfl, h3, rfl⟩ := (matchItems_lit _ _ _ _ _).mp h2
        cases t3 with
        | nil => simp [matchItems_one_nil] at h3
        | cons c t =>
          rw [matchItems_one_cons, matchItems_many, matchMany_capture] at h3
          by_cases hc : notQuote c = true
          · simp only [hc, if_true, Option.map_some', Option.some.injEq] at h3
            subst h3
            exact ⟨q, c, t, rfl, hq, hc, by simp [Match.push]⟩
          · simp [hc] at h3
      · simp [hq] at h1
  · rintro ⟨q, c, t, rfl, hq, hc, rfl⟩
    refine ⟨_, Match.push false q (Match.mk ("http".toList ++ c :: t.takeWhile notQuote)
      ("http".toList ++ c :: t.takeWhile notQuote) (t.dropWhile notQuote)), rfl, ?_, ?_⟩
    · rw [matchItems_one_cons, matchItems_capOpen]
      simp only [hq, if_true]
      have : matchItems ("http".toList.map (fun c => Item.one (exact c)) ++
          [.one notQuote, .many notQuote true, .capClose]) true ("http".toList ++ c :: t) =
          some ⟨"http".toList ++ c :: t.takeWhile notQuote,
            "http".toList ++ c :: t.takeWhile notQuote, t.dropWhile notQuote⟩ := by
        rw [matchItems_lit]
        refine ⟨c :: t, ⟨c :: t.takeWhile notQuote, c :: t.takeWhile notQuote,
          t.dropWhile notQuote⟩, rfl, ?_, by simp⟩
        rw [matchItems_one_cons, matchItems_many, matchMany_capture]
        simp [hc, Match.push]
      rw [this]; rfl
    · simp [Match.push]

theorem reLink_nonEmpty : NonEmpty reLink := by
  intro s m h
  obtain ⟨q, c, t, _, _, _, rfl⟩ := (reLink_match s m).mp h
  simp

theorem findAllAux_fuel {re : Regexp} (hne : NonEmpty re) :
    ∀ (f f2 : Nat) (a a2 : Bool) (s : Str), s.length < f → s.length < f2 →
      findAllAux re f a s = findAllAux re f2 a2 s := by
  intro f
  induction f with
  | zero => intro f2 a a2 s h; omega
  | succ f ih =>
    intro f2 a a2 s h1 h2
    cases f2 with
    | zero => omega
    | succ f2 =>
      rw [findAllAux_succ, findAllAux_succ]
      cases hm : matchAt re s with
      | some m =>
        have hl := hne.rest_lt hm
        simp only [hne s m hm, if_false]
        rw [ih f2 true true m.rest (by omega) (by omega)]
      | none =>
        cases s with
        | nil => rfl
        | cons c t =>
          simp only
          simp only [List.length_cons] at h1 h2
          rw [ih f2 false false t (by omega) (by omega)]

theorem findAll_nil {re : Regexp} (hne : NonEmpty re) : findAll re [] = [] := by
  simp [findAll, findAllAux, hne.nil]

theorem findAll_some {re : Regexp} (hne : NonEmpty re) {s : Str} {m : Match}
    (h : matchAt re s = some m) : findAll re s = m :: findAll re m.rest := by
  have hl := hne.rest_lt h
  unfold findAll
  rw [findAllAux_succ]
  simp only [h, hne s m h, if_false]
  rw [findAllAux_fuel hne s.length (m.rest.length + 1) true false m.rest hl (by omega)]

theorem findAll_none {re : Regexp} (hne : NonEmpty re) {c : Char} {t : Str}
    (h : matchAt re (c :: t) = none) : findAll re (c :: t) = findAll re t := by
  unfold findAll
  rw [findAllAux_succ]
  simp only [h]
  rw [findAllAux_fuel hne (c :: t).length (t.length + 1) false false t (by simp) (by omega)]

/-- When every match runs to the end of the input there is at most one. -/
theorem findAll_le_one {re : Regexp} (hne : NonEmpty re) : ∀ (s : Str),
    (∀ y, y <:+ s → ∀ m, matchAt re y = some m → m.rest = []) →
    findAll re s = [] ∨ ∃ y m, y <:+ s ∧ matchAt re y = some m ∧ findAll re s = [m] := by
  intro s
  induction s with
  | nil => intro _; exact Or.inl (findAll_nil hne)
  | cons c t ih =>
    intro h
    cases hm : matchAt re (c :: t) with
    | some m =>
      right
      refine ⟨c :: t, m, List.suffix_refl _, hm, ?_⟩
      rw [findAll_some hne hm, h _ (List.suffix_refl _) m hm, findAll_nil hne]
    | none =>
      rw [findAll_none hne hm]
      rcases ih (fun y hy => h y (hy.trans (List.suffix_cons c t))) with h1 | ⟨y, m, hy, hym, h1⟩
      · exact Or.inl h1
      · exact Or.inr ⟨y, m, hy.trans (List.suffix_cons c t), hym, h1⟩

/-- The href pattern on a quoted, closed, non-empty value. -/
theorem matchAt_href_value (q q2 : Char) (l post : Str) (hq : isQuote q = true)
    (hq2 : isQuote q2 = true) (hl : l ≠ []) (hl2 : ∀ c ∈ l, notQuote c = true) :
    matchAt reHref ("href=".toList ++ q :: (l ++ q2 :: post)) =
      some ⟨"href=".toList ++ q :: (l ++ [q2]), [], post⟩ := by
  have h1 : folded 'h' 'h' = true := by decide
  have h2 : folded 'r' 'r' = true := by decide
  have h3 : folded 'e' 'e' = true := by decide
  have h4 : folded 'f' 'f' = true := by decide
  have h5 : folded '=' '=' = true := by decide
  have hqn : notQuote q2 = false := by simp [notQuote, hq2]
  have e1 : List.dropWhile notQuote (l ++ q2 :: post) = q2 :: post := by
    rw [dropWhile_append_all _ hl2]; simp [List.dropWhile, hqn]
  have e2 : List.takeWhile notQuote (l ++ q2 :: post) = l := by
    rw [takeWhile_append_all _ hl2]; simp [List.takeWhile, hqn]
  have e0 : "href=".toList = ['h', 'r', 'e', 'f', '='] := by decide
  rw [reHref_eq, matchAt, hrefClasses, e0]
  simp only [List.cons_append, List.nil_append, attrRe_cons, h1, h2, h3, h4, h5, if_true]
  simp [attrRe, matchItems_attrTail, attrValue_cons, hq, e1, e2, hl, Match.push]

theorem mem_extractLinksLoop : ∀ (ms : List (List Str)) (seen links : List Str) (l : Str),
    l ∈ extractLinksLoop ms seen links → l ∈ links ∨ ∃ m ∈ ms, l = m.getD 1 [] := by
  intro ms
  induction ms with
  | nil => intro seen links l h; exact Or.inl (by simpa [extractLinksLoop] using h)
  | cons m ms ih =>
    intro seen links l h
    unfold extractLinksLoop at h
    by_cases hs : m.getD 1 [] ∈ seen
    · simp only [hs, if_true] at h
      rcases ih _ _ _ h with h1 | ⟨m1, hm1, h1⟩
      · exact Or.inl h1
      · exact Or.inr ⟨m1, by simp [hm1], h1⟩
    · simp only [hs, if_false] at h
      rcases ih _ _ _ h with h1 | ⟨m1, hm1, h1⟩
      · rcases List.mem_append.mp h1 with h2 | h2
        · exact Or.inl h2
        · exact Or.inr ⟨m, by simp, by simpa using h2⟩
      · exact Or.inr ⟨m1, by simp [hm1], h1⟩

/-- Every extracted link is the capture of a match of the link pattern. -/
theorem mem_extractLinks {html l : Str} (h : l ∈ extractLinks html) :
    ∃ y m, y <:+ html ∧ matchAt reLink y = some m ∧ l = m.cap := by
  rcases mem_extractLinksLoop _ _ _ _ h with h1 | ⟨m1, hm1, rfl⟩
  · simp at h1
  · simp only [findAllStringSubmatch, List.mem_map] at hm1
    obtain ⟨m, hm, rfl⟩ := hm1
    obtain ⟨y, hy, hym⟩ := mem_findAll hm
    exact ⟨y, m, hy, hym, rfl⟩

theorem dropWhile_head_false {p : Char → Bool} : ∀ {t : Str} {a : Char} {r : Str},
    t.dropWhile p = a :: r → p a = false := by
  intro t
  induction t with
  | nil => intro a r h; simp at h
  | cons c t ih =>
    intro a r h
    by_cases hc : p c = true
    · rw [List.dropWhile_cons_of_pos hc] at h; exact ih h
    · rw [List.dropWhile_cons_of_neg hc] at h
      simp only [List.cons.injEq] at h
      rw [← h.1]; simpa using hc

theorem takeWhile_all (p : Char → Bool) (t : Str) : ∀ c ∈ t.takeWhile p, p c = true :=
  fun _ hc => List.mem_takeWhile_imp hc

/-- The capture of a link match: `http`, then at least one rune, no quote. -/
theorem link_cap_shape {y : Str} {mk : Match} (h : matchAt reLink y = some mk) :
    5 ≤ mk.cap.length ∧ ∀ c ∈ mk.cap, notQuote c = true := by
  obtain ⟨q, c, t, _, _, hc, rfl⟩ := (reLink_match y mk).mp h
  refine ⟨by simp, ?_⟩
  intro x hx
  simp only [List.mem_append, List.mem_cons] at hx
  rcases hx with hx | rfl | hx
  · revert x; decide
  · exact hc
  · exact takeWhile_all _ _ _ hx

/-- In sanitized markup a link match is never followed by a closing quote: it
runs to the end. -/
theorem link_rest_nil (m : Str) {y : Str} {mk : Match} (hy : y <:+ sanitizeHTML m)
    (h : matchAt reLink y = some mk) : mk.rest = [] := by
  obtain ⟨q, c, t, rfl, hq, hc, rfl⟩ := (reLink_match y mk).mp h
  cases hd : t.dropWhile notQuote with
  | nil => rfl
  | cons q2 post =>
    exfalso
    have hq2 : isQuote q2 = true := by
      have := dropWhile_head_false hd
      simpa [notQuote] using this
    have ht : t = t.takeWhile notQuote ++ q2 :: post := by
      rw [← hd, List.takeWhile_append_dropWhile]
    have hl2 : ∀ x ∈ "http".toList ++ c :: t.takeWhile notQuote, notQuote x = true := by
      intro x hx
      simp only [List.mem_append, List.mem_cons] at hx
      rcases hx with hx | rfl | hx
      · revert x; decide
      · exact hc
      · exact takeWhile_all _ _ _ hx
    have hm := matchAt_href_value q q2 ("http".toList ++ c :: t.takeWhile notQuote) post hq hq2
      (by simp) hl2
    have hyy : "href=".toList ++ q :: ("http".toList ++ c :: t)
        = "href=".toList ++ q :: (("http".toList ++ c :: t.takeWhile notQuote) ++ q2 :: post) := by
      conv_lhs => rw [ht]
      simp
    rw [hyy] at hy
    have := sanitizeHTML_good_href m _ hy _ hm
    have hlen := congrArg List.length this
    simp [hrefRepl] at hlen

/-! ## The loop of `extractLinks` -/

theorem extractLinksLoop_eq : ∀ (ms : List (List Str)) (seen links : List Str),
    extractLinksLoop ms seen links = links ++ firstSeen seen (ms.map fun m => m.getD 1 []) := by
  intro ms
  induction ms with
  | nil => intro seen links; simp [extractLinksLoop, firstSeen]
  | cons m ms ih =>
    intro seen links
    rw [List.map_cons]
    unfold extractLinksLoop firstSeen
    by_cases hs : m.getD 1 [] ∈ seen
    · simp only [hs, if_true, ih]
    · simp only [hs, if_false, ih, List.append_assoc, List.singleton_append]

theorem extractLinks_eq (html : Str) : extractLinks html = firstSeen [] (linkCaptures html) := by
  simp [extractLinks, linkCaptures, extractLinksLoop_eq]

theorem mem_firstSeen : ∀ (xs seen : List Str) (l : Str),
    l ∈ firstSeen seen xs ↔ l ∈ xs ∧ l ∉ seen := by
  intro xs
  induction xs with
  | nil => intro seen l; simp [firstSeen]
  | cons x xs ih =>
    intro seen l
    unfold firstSeen
    by_cases hx : x ∈ seen
    · simp only [hx, if_true, ih, List.mem_cons]
      constructor
      · rintro ⟨h1, h2⟩; exact ⟨Or.inr h1, h2⟩
      · rintro ⟨h1 | h1, h2⟩
        · subst h1; exact absurd hx h2
        · exact ⟨h1, h2⟩
    · simp only [hx, if_false, List.mem_cons, ih, not_or]
      constructor
      · rintro (h | ⟨h1, h2, h3⟩)
        · subst h; exact ⟨Or.inl rfl, hx⟩
        · exact ⟨Or.inr h1, h3⟩
      · rintro ⟨h1 | h1, h2⟩
        · exact Or.inl h1
        · by_cases hl : l = x
          · exact Or.inl hl
          · exact Or.inr ⟨h1, hl, h2⟩

theorem nodup_firstSeen : ∀ (xs seen : List Str), (firstSeen seen xs).Nodup := by
  intro xs
  induction xs with
  | nil => intro seen; simp [firstSeen]
  | cons x xs ih =>
    intro seen
    unfold firstSeen
    by_cases hx : x ∈ seen
    · simp only [hx, if_true]; exact ih seen
    · simp only [hx, if_false, List.nodup_cons]
      refine ⟨?_, ih _⟩
      rw [mem_firstSeen]
      simp

theorem indexOf_head_ne {x a : Str} (xs : List Str) (h : x ≠ a) :
    (x :: xs).indexOf a = xs.indexOf a + 1 := by
  rw [List.indexOf_cons]
  have : (x == a) = false := by simpa using h
  rw [this]; rfl

theorem indexOf_head_self (a : Str) (xs : List Str) : (a :: xs).indexOf a = 0 := by
  rw [List.indexOf_cons]
  have : (a == a) = true := by simp
  rw [this]; rfl

theorem indexOf_firstSeen : ∀ (xs seen : List Str) (a b : Str), a ∈ xs → b ∈ xs →
    a ∉ seen → b ∉ seen →
    ((firstSeen seen xs).indexOf a < (firstSeen seen xs).indexOf b ↔
      xs.indexOf a < xs.indexOf b) := by
  intro xs
  induction xs with
  | nil => intro seen a b ha; simp at ha
  | cons x xs ih =>
    intro seen a b ha hb has hbs
    unfold firstSeen
    by_cases hx : x ∈ seen
    · have hax : x ≠ a := fun h => has (h ▸ hx)
      have hbx : x ≠ b := fun h => hbs (h ▸ hx)
      have ha2 : a ∈ xs := by
        rcases List.mem_cons.mp ha with h | h
        · exact absurd h.symm hax
        · exact h
      have hb2 : b ∈ xs := by
        rcases List.mem_cons.mp hb with h | h
        · exact absurd h.symm hbx
        · exact h
      simp only [hx, if_true, indexOf_head_ne _ hax, indexOf_head_ne _ hbx,
        Nat.add_lt_add_iff_right]
      exact ih seen a b ha2 hb2 has hbs
    · simp only [hx, if_false]
      by_cases hax : x = a
      · subst hax
        by_cases hbx : x = b
        · subst hbx; simp
        · simp [indexOf_head_ne _ hbx, indexOf_head_self]
      · by_cases hbx : x = b
        · subst hbx
          simp [indexOf_head_ne _ hax, indexOf_head_self]
        · have ha2 : a ∈ xs := by
            rcases List.mem_cons.mp ha with h | h
            · exact absurd h.symm hax
            · exact h
          have hb2 : b ∈ xs := by
            rcases List.mem_cons.mp hb with h | h
            · exact absurd h.symm hbx
            · exact h
          simp only [indexOf_head_ne _ hax, indexOf_head_ne _ hbx,
            Nat.add_lt_add_iff_right]
          refine ih (x :: seen) a b ha2 hb2 ?_ ?_
          · simp [has, Ne.symm hax]
          · simp [hbs, Ne.symm hbx]

/-! ## `strings.ReplaceAll` -/

theorem stringsReplaceAux_succ (old new : Str) (fuel : Nat) (s : Str) :
    stringsReplaceAux old new (fuel + 1) s =
      if old.isPrefixOf s then new ++ stringsReplaceAux old new fuel (s.drop old.length)
      else
        match s with
        | [] => []
        | c :: t => c :: stringsReplaceAux old new fuel t := rfl

theorem isPrefixOf_iff (old s : Str) : old.isPrefixOf s = true ↔ old <+: s :=
  List.isPrefixOf_iff_prefix

theorem stringsReplaceAux_fuel {old : Str} (hold : old ≠ []) (new : Str) :
    ∀ (f f2 : Nat) (s : Str), s.length < f → s.length < f2 →
      stringsReplaceAux old new f s = stringsReplaceAux old new f2 s := by
  have hpos : 0 < old.length := List.length_pos.mpr hold
  intro f
  induction f with
  | zero => intro f2 s h; omega
  | succ f ih =>
    intro f2 s h1 h2
    cases f2 with
    | zero => omega
    | succ f2 =>
      rw [stringsReplaceAux_succ, stringsReplaceAux_succ]
      by_cases hp : old.isPrefixOf s = true
      · have hle : old.length ≤ s.length := ((isPrefixOf_iff _ _).mp hp).length_le
        have hd : (s.drop old.length).length < s.length := by
          rw [List.length_drop]; omega
        simp only [hp, if_true]
        rw [ih f2 _ (by omega) (by omega)]
      · simp only [hp, Bool.false_eq_true, if_false]
        cases s with
        | nil => rfl
        | cons c t =>
          simp only [List.length_cons] at h1 h2
          simp only
          rw [ih f2 t (by omega) (by omega)]

theorem stringsReplaceAll_nil {old : Str} (hold : old ≠ []) (new : Str) :
    stringsReplaceAll [] old new = [] := by
  have : old.isPrefixOf ([] : Str) = false := by
    cases old with
    | nil => exact absurd rfl hold
    | cons a b => rfl
  simp [stringsReplaceAll, hold, stringsReplaceAux_succ, this]

theorem stringsReplaceAll_hit {old : Str} (hold : old ≠ []) (new : Str) {s : Str}
    (h : old <+: s) :
    stringsReplaceAll s old new = new ++ stringsReplaceAll (s.drop old.length) old new := by
  have hpos : 0 < old.length := List.length_pos.mpr hold
  have hle : old.length ≤ s.length := h.length_le
  have hp : old.isPrefixOf s = true := (isPrefixOf_iff _ _).mpr h
  simp only [stringsReplaceAll, hold, if_false]
  rw [stringsReplaceAux_succ]
  simp only [hp, if_true]
  rw [stringsReplaceAux_fuel hold new s.length ((s.drop old.length).length + 1) _
    (by rw [List.length_drop]; omega) (by omega)]

theorem stringsReplaceAll_miss {old : Str} (hold : old ≠ []) (new : Str) {c : Char} {t : Str}
    (h : ¬ old <+: c :: t) :
    stringsReplaceAll (c :: t) old new = c :: stringsReplaceAll t old new := by
  have hp : old.isPrefixOf (c :: t) = false := by
    cases hb : old.isPrefixOf (c :: t) with
    | false => rfl
    | true => exact absurd ((isPrefixOf_iff _ _).mp hb) h
  simp only [stringsReplaceAll, hold, if_false]
  rw [stringsReplaceAux_succ]
  simp only [hp, Bool.false_eq_true, if_false]
  rw [stringsReplaceAux_fuel hold new (c :: t).length (t.length + 1) _ (by simp) (by omega)]

/-- A string in which `old` does not occur is left as it is. -/
theorem stringsReplaceAll_absent {old : Str} (hold : old ≠ []) (new : Str) :
    ∀ (s : Str), ¬ old <:+: s → stringsReplaceAll s old new = s := by
  intro s
  induction s with
  | nil => intro _; exact stringsReplaceAll_nil hold new
  | cons c t ih =>
    intro h
    have h1 : ¬ old <+: c :: t := fun hp => h hp.isInfix
    have h2 : ¬ old <:+: t := fun hi => h (hi.trans (List.suffix_cons c t).isInfix)
    rw [stringsReplaceAll_miss hold new h1, ih h2]

/-- When `old` occurs in `x ++ old` at the end only, it is replaced there. -/
theorem stringsReplaceAll_at_end {old : Str} (hold : old ≠ []) (new : Str) :
    ∀ (x : Str), (∀ z, z <:+ x → z ≠ [] → ¬ old <+: z ++ old) →
      stringsReplaceAll (x ++ old) old new = x ++ new := by
  intro x
  induction x with
  | nil =>
    intro _
    rw [List.nil_append, stringsReplaceAll_hit hold new (List.prefix_refl old)]
    simp [stringsReplaceAll_nil hold]
  | cons c t ih =>
    intro h
    have h1 : ¬ old <+: c :: (t ++ old) := h (c :: t) (List.suffix_refl _) (by simp)
    rw [List.cons_append, stringsReplaceAll_miss hold new h1,
      ih (fun z hz hne => h z (hz.trans (List.suffix_cons c t)) hne)]
    rfl

/-- The literal `.onion` overlaps itself nowhere: an occurrence that starts
before a final `.onion` lies in the text before it. -/
theorem onion_border {z : Str} (hz : z ≠ []) (h : ".onion".toList <+: z ++ ".onion".toList) :
    ".onion".toList <+: z := by
  have e : ".onion".toList = ['.', 'o', 'n', 'i', 'o', 'n'] := by decide
  rw [e] at h ⊢
  rcases z with _ | ⟨a, _ | ⟨b, _ | ⟨c, _ | ⟨d, _ | ⟨e1, _ | ⟨f, r⟩⟩⟩⟩⟩⟩
  · exact absurd rfl hz
  all_goals
    simp only [List.cons_append, List.nil_append, List.cons_prefix_cons] at h ⊢
  · exact absurd h.2.1 (by decide)
  · exact absurd h.2.2.1 (by decide)
  · exact absurd h.2.2.2.1 (by decide)
  · exact absurd h.2.2.2.2.1 (by decide)
  · exact absurd h.2.2.2.2.2.1 (by decide)
  · exact ⟨h.1, h.2.1, h.2.2.1, h.2.2.2.1, h.2.2.2.2.1, h.2.2.2.2.2.1, List.nil_prefix⟩

theorem hexDigit_mem {n : Nat} (h : n < 16) : hexDigit n ∈ "0123456789abcdef".toList := by
  interval_cases n <;> decide

theorem hexEncodeToString_length (bs : List UInt8) :
    (hexEncodeToString bs).length = 2 * bs.length := by
  induction bs with
  | nil => rfl
  | cons b bs ih =>
    simp only [hexEncodeToString, List.flatMap_cons, List.length_append, List.length_cons,
      List.length_nil] at ih ⊢
    omega

theorem hexEncodeToString_mem (bs : List UInt8) :
    ∀ c ∈ hexEncodeToString bs, c ∈ "0123456789abcdef".toList := by
  intro c hc
  simp only [hexEncodeToString, List.mem_flatMap, List.mem_cons, List.mem_singleton,
    List.not_mem_nil, or_false] at hc
  obtain ⟨b, _, rfl | rfl⟩ := hc
  · exact hexDigit_mem (by have := b.toNat_lt; omega)
  · exact hexDigit_mem (by omega)

/-! ## The slug -/

theorem reNotSlug_match (c : Char) (t : Str) :
    matchAt reNotSlug (c :: t) = if notSlugChar c then some ⟨[c], [], t⟩ else none := by
  simp [matchAt, reNotSlug, matchItems, Match.push]

theorem reNotSlug_nonEmpty : NonEmpty reNotSlug := by
  intro s m h
  cases s with
  | nil => simp [matchAt, reNotSlug, matchItems] at h
  | cons c t =>
    rw [reNotSlug_match] at h
    by_cases hc : notSlugChar c = true
    · simp only [hc, if_true, Option.some.injEq] at h; subst h; simp
    · simp [hc] at h

/-- Deleting the matches of `[^a-zA-Z0-9 _\-]` keeps the runes of the class. -/
theorem replaceAll_notSlug (t : Str) : replaceAllString reNotSlug t [] = t.filter slugChar := by
  induction t with
  | nil => exact replaceAllString_nil reNotSlug_nonEmpty []
  | cons c t ih =>
    by_cases hc : slugChar c = true
    · have hm : matchAt reNotSlug (c :: t) = none := by
        rw [reNotSlug_match]; simp [notSlugChar, hc]
      rw [replaceAllString_none reNotSlug_nonEmpty [] hm, ih, List.filter_cons_of_pos hc]
    · have hm : matchAt reNotSlug (c :: t) = some ⟨[c], [], t⟩ := by
        rw [reNotSlug_match]; simp [notSlugChar, hc]
      rw [replaceAllString_some reNotSlug_nonEmpty [] hm, List.nil_append, ih,
        List.filter_cons_of_neg hc]

/-- Replacing a one-rune string by a one-rune string maps rune by rune. -/
theorem stringsReplaceAll_single (a b : Char) (s : Str) :
    stringsReplaceAll s [a] [b] = s.map fun c => if c = a then b else c := by
  induction s with
  | nil => exact stringsReplaceAll_nil (by simp) _
  | cons c t ih =>
    by_cases hc : c = a
    · subst hc
      have hp : [c] <+: c :: t := by simp [List.cons_prefix_cons]
      rw [stringsReplaceAll_hit (by simp) _ hp]
      simp [ih]
    · have hp : ¬ [a] <+: c :: t := by
        simp [List.cons_prefix_cons, Ne.symm hc]
      rw [stringsReplaceAll_miss (by simp) _ hp, ih]
      simp [hc]

theorem slug_rune_safe (c : Char)
    (h : ('a' ≤ c ∧ c ≤ 'z') ∨ ('A' ≤ c ∧ c ≤ 'Z') ∨ ('0' ≤ c ∧ c ≤ '9') ∨ c = '_' ∨ c = '-') :
    c ≠ ' ' ∧ c ≠ '.' ∧ c ≠ '/' ∧ c ≠ Char.ofNat 92 := by
  refine ⟨?_, ?_, ?_, ?_⟩ <;>
  · intro hc
    subst hc
    revert h
    decide

theorem slugChar_cases {c : Char} (h : slugChar c = true) :
    ('a' ≤ c ∧ c ≤ 'z') ∨ ('A' ≤ c ∧ c ≤ 'Z') ∨ ('0' ≤ c ∧ c ≤ '9') ∨ c = ' ' ∨ c = '_' ∨
      c = '-' := by
  simpa [slugChar, or_assoc] using h

/-! ## Every pattern of the program has only non-empty matches -/

theorem nonEmpty_of_one (p : Char → Bool) (is : Regexp) : NonEmpty (.one p :: is) := by
  intro s m h
  cases s with
  | nil => simp [matchAt, matchItems] at h
  | cons c t =>
    rw [matchAt, matchItems_one_cons] at h
    by_cases hp : p c = true
    · simp only [hp, if_true, Option.map_eq_some'] at h
      obtain ⟨m0, _, rfl⟩ := h
      simp [Match.push]
    · simp [hp] at h

theorem reBase_nonEmpty : NonEmpty reBase := nonEmpty_of_one _ _

theorem reHref_nonEmpty : NonEmpty reHref := nonEmpty_of_one _ _

theorem reSrc_nonEmpty : NonEmpty reSrc := nonEmpty_of_one _ _

theorem reTitle_nonEmpty : NonEmpty reTitle := nonEmpty_of_one _ _

/-! ## The nil request -/

/-- Whatever the surroundings, a target for which `http.NewRequest` returns no
request makes `scanTarget` panic. -/
theorem scanTarget_nil_request (env : Env) (target : Str) (h : env.newRequest target = none) :
    scanTarget env target = .panicked [] := by
  simp [scanTarget, h]

/-! ## The claims -/

/-- C1: `extractLinks` returns the captures of the matches of
`href=["'](http[^"']+)` with duplicates removed and first-seen order kept: no
link occurs twice, a link is returned exactly when it is captured, and `a`
comes before `b` in the result exactly when the first capture of `a` comes
before the first capture of `b` in the markup; on markup with `http://a`,
`http://b`, `http://a` the result is `[http://a, http://b]`. -/
theorem extractLinks_first_seen (html : Str) :
    (extractLinks html).Nodup ∧
    (∀ l, l ∈ extractLinks html ↔ l ∈ linkCaptures html) ∧
    (∀ a b, a ∈ linkCaptures html → b ∈ linkCaptures html →
      ((extractLinks html).indexOf a < (extractLinks html).indexOf b ↔
        (linkCaptures html).indexOf a < (linkCaptures html).indexOf b)) ∧
    extractLinks
        "<a href=\"http://a\">1</a><a href=\"http://b\">2</a><a href=\"http://a\">3</a>".toList
      = ["http://a".toList, "http://b".toList] := by
  refine ⟨?_, ?_, ?_, by decide⟩
  · rw [extractLinks_eq]; exact nodup_firstSeen _ _
  · intro l; rw [extractLinks_eq, mem_firstSeen]; simp
  · intro a b ha hb
    rw [extractLinks_eq]
    exact indexOf_firstSeen _ [] a b ha hb (by simp) (by simp)

/-- C3: in the output of `sanitizeHTML` every match of the pattern
`(?i)href=["'][^"']+["']`, those `FindAll` reports and any match at any
position, is exactly the text `href="#"`; and for every link `l` that
`extractLinks` returns on the input, the output does not contain the literal
`href="l"`.  The page `<a href="http://example.com/x">x</a>` becomes the marker
and `<a href="#">x</a>`. -/
theorem sanitizeHTML_rewrites_every_href (m : Str) :
    (∀ mt ∈ findAll reHref (sanitizeHTML m), mt.whole = "href=\"#\"".toList) ∧
    (∀ y mt, y <:+ sanitizeHTML m → matchAt reHref y = some mt →
      mt.whole = "href=\"#\"".toList) ∧
    (∀ l ∈ extractLinks m, ¬ ("href=\"".toList ++ l ++ "\"".toList) <:+: sanitizeHTML m) ∧
    sanitizeHTML "<a href=\"http://example.com/x\">x</a>".toList
      = notice ++ "\n".toList ++ "<a href=\"#\">x</a>".toList := by
  have hgood := sanitizeHTML_good_href m
  refine ⟨?_, fun y mt hy hm => hgood y hy mt hm, ?_, by decide⟩
  · intro mt hmt
    obtain ⟨y, hy, hym⟩ := mem_findAll hmt
    exact hgood y hy mt hym
  · intro l hl hin
    obtain ⟨y, mk, _, hmk, rfl⟩ := mem_extractLinks hl
    obtain ⟨hlen, hnq⟩ := link_cap_shape hmk
    obtain ⟨pre, post, hout⟩ := hin
    have hne : mk.cap ≠ [] := by
      intro h; rw [h] at hlen; simp at hlen
    have hm := matchAt_href_value '"' '"' mk.cap post (by decide) (by decide) hne hnq
    have hsuf : "href=".toList ++ '"' :: (mk.cap ++ '"' :: post) <:+ sanitizeHTML m := by
      refine ⟨pre, ?_⟩
      rw [← hout]
      simp
    have := hgood _ hsuf _ hm
    have h2 := congrArg List.length this
    simp [hrefRepl] at h2
    omega

/-- C10, as the code has it: the link extractor finds in sanitized markup at
most one link, and only an href value that no quote closes, so that it runs to
the very end of the output. -/
theorem extractLinks_sanitizeHTML (m : Str) :
    extractLinks (sanitizeHTML m) = [] ∨
    ∃ q l, isQuote q = true ∧ ("href=".toList ++ q :: l) <:+ sanitizeHTML m ∧
      (∀ c ∈ l, c ≠ '"' ∧ c ≠ apos) ∧ extractLinks (sanitizeHTML m) = [l] := by
  rcases findAll_le_one reLink_nonEmpty (sanitizeHTML m)
    (fun y hy mk hmk => link_rest_nil m hy hmk) with h | ⟨y, mk, hy, hmk, h⟩
  · left
    simp [extractLinks, findAllStringSubmatch, h, extractLinksLoop]
  · right
    have hrest := link_rest_nil m hy hmk
    have hcap := (link_cap_shape hmk).2
    obtain ⟨q, c, t, rfl, hq, hc, rfl⟩ := (reLink_match y mk).mp hmk
    simp only at hrest hcap
    refine ⟨q, "http".toList ++ c :: t.takeWhile notQuote, hq, ?_, ?_, ?_⟩
    · have ht : t = t.takeWhile notQuote := by
        conv_lhs => rw [← List.takeWhile_append_dropWhile notQuote t, hrest]
        simp
      rw [← ht]; exact hy
    · intro x hx
      have := hcap x hx
      simpa [notQuote, isQuote] using this
    · simp [extractLinks, findAllStringSubmatch, h, extractLinksLoop]

/-- C10 fails as stated: an href value that no quote closes is left in place
by `sanitizeHTML` and is still found by `extractLinks`. -/
theorem extractLinks_sanitizeHTML_counterexample :
    extractLinks (sanitizeHTML "<a href=\"http://x.onion>".toList) = ["http://x.onion>".toList] ∧
    extractLinks (sanitizeHTML "<a href=\"http://x.onion>".toList) ≠ [] := by
  decide

/-- C5, as the code has it: markup without a `<title>...</title>` match gives
the slug `unknown_title`; so does the markup `<p>no title</p>`, and
`<title>Hello, World!</title>` gives `Hello_World`. -/
theorem extractTitle_fallback (html : Str) (h : findMatch reTitle html = none) :
    extractTitle html = "unknown_title".toList ∧
    extractTitle "<p>no title</p>".toList = "unknown_title".toList ∧
    extractTitle "<title>Hello, World!</title>".toList = "Hello_World".toList := by
  refine ⟨?_, by decide, by decide⟩
  simp [extractTitle, findStringSubmatch, h]

/-- C5 at a page that has a heading and no title. -/
theorem extractTitle_fallback_witness :
    findMatch reTitle "<html><h1>Hidden wiki</h1></html>".toList = none ∧
    extractTitle "<html><h1>Hidden wiki</h1></html>".toList = "unknown_title".toList :=
  ⟨by decide, (extractTitle_fallback _ (by decide)).1⟩

/-- C5 fails as stated: a title element whose text is empty is a match, and
the slug is then the empty string, not `unknown_title`. -/
theorem extractTitle_fallback_counterexample :
    findStringSubmatch reTitle "<title></title>".toList = ["<title></title>".toList, []] ∧
    extractTitle "<title></title>".toList = [] ∧
    extractTitle "<title></title>".toList ≠ "unknown_title".toList := by
  decide

/-- C6: every rune of the slug `extractTitle` returns is an ASCII letter, a
digit, an underscore or a hyphen; none is a space, a dot, a slash or a
backslash (rune 92). -/
theorem extractTitle_path_safe (html : Str) :
    ∀ c ∈ extractTitle html,
      (('a' ≤ c ∧ c ≤ 'z') ∨ ('A' ≤ c ∧ c ≤ 'Z') ∨ ('0' ≤ c ∧ c ≤ '9') ∨ c = '_' ∨ c = '-') ∧
      c ≠ ' ' ∧ c ≠ '.' ∧ c ≠ '/' ∧ c ≠ Char.ofNat 92 := by
  intro c hc
  suffices hs : ('a' ≤ c ∧ c ≤ 'z') ∨ ('A' ≤ c ∧ c ≤ 'Z') ∨ ('0' ≤ c ∧ c ≤ '9') ∨ c = '_' ∨
      c = '-' from ⟨hs, slug_rune_safe c hs⟩
  unfold extractTitle at hc
  simp only at hc
  split at hc
  · have e : " ".toList = [' '] := rfl
    have e2 : "_".toList = ['_'] := rfl
    rw [replaceAll_notSlug, e, e2, stringsReplaceAll_single, List.mem_map] at hc
    obtain ⟨x, hx, rfl⟩ := hc
    have hxs : slugChar x = true := (List.mem_filter.mp hx).2
    by_cases hsp : x = ' '
    · simp [hsp]
    · simp only [hsp, if_false]
      rcases slugChar_cases hxs with h | h | h | h | h | h
      · exact Or.inl h
      · exact Or.inr (Or.inl h)
      · exact Or.inr (Or.inr (Or.inl h))
      · exact absurd h hsp
      · exact Or.inr (Or.inr (Or.inr (Or.inl h)))
      · exact Or.inr (Or.inr (Or.inr (Or.inr h)))
  · revert c; decide

/-- C6 at the first rune of the slug of `<title>Hello, World!</title>`. -/
theorem extractTitle_path_safe_witness :
    'H' ∈ extractTitle "<title>Hello, World!</title>".toList ∧
    ((('a' ≤ 'H' ∧ 'H' ≤ 'z') ∨ ('A' ≤ 'H' ∧ 'H' ≤ 'Z') ∨ ('0' ≤ 'H' ∧ 'H' ≤ '9') ∨
        'H' = '_' ∨ 'H' = '-') ∧
      'H' ≠ ' ' ∧ 'H' ≠ '.' ∧ 'H' ≠ '/' ∧ 'H' ≠ Char.ofNat 92) :=
  ⟨by decide, extractTitle_path_safe "<title>Hello, World!</title>".toList 'H' (by decide)⟩

/-- C7, as the code has it: for a URL that parses with host `h`, the directory
is `output/<slug>_<ts>_<h1>_<d>`, where `ts` is the clock reading at second
resolution, `h1` is `h` with every occurrence of `.onion` removed (`h` itself
when `.onion` does not occur in it, `x` when `h` is `x.onion` and `.onion`
does not occur in `x`), and `d` is the first 6 characters, all hexadecimal, of
the hex form of the SHA-256 of the URL. -/
theorem buildOutputDir_format (env : Env) (rawURL title : Str) (u : URL)
    (hu : env.urlParse rawURL = some u) :
    buildOutputDir env rawURL title =
      some ("output/".toList ++ title ++ "_".toList ++ env.now.format ++ "_".toList ++
        stringsReplaceAll u.host ".onion".toList [] ++ "_".toList ++
        (hexEncodeToString (List.ofFn (env.sha256Sum rawURL))).take 6) ∧
    (¬ ".onion".toList <:+: u.host → stringsReplaceAll u.host ".onion".toList [] = u.host) ∧
    (∀ x, u.host = x ++ ".onion".toList → ¬ ".onion".toList <:+: x →
      stringsReplaceAll u.host ".onion".toList [] = x) ∧
    ((hexEncodeToString (List.ofFn (env.sha256Sum rawURL))).take 6).length = 6 ∧
    (∀ c ∈ (hexEncodeToString (List.ofFn (env.sha256Sum rawURL))).take 6,
      c ∈ "0123456789abcdef".toList) ∧
    (∀ n, ({ env.now with nanosecond := n } : Time).format = env.now.format) := by
  have hold : ".onion".toList ≠ [] := by decide
  refine ⟨?_, ?_, ?_, ?_, ?_, fun _ => rfl⟩
  · simp [buildOutputDir, hu]
  · intro h
    exact stringsReplaceAll_absent hold [] _ h
  · intro x hx hno
    rw [hx]
    have := stringsReplaceAll_at_end hold [] x (fun z hz hne hp =>
      hno ((onion_border hne hp).isInfix.trans hz.isInfix))
    simpa using this
  · rw [List.length_take, hexEncodeToString_length, List.length_ofFn]
    rfl
  · intro c hc
    exact hexEncodeToString_mem _ c (List.mem_of_mem_take hc)

/-- C7 at the hidden service `abcdef.onion`. -/
theorem buildOutputDir_format_witness :
    sampleEnv.urlParse "http://abcdef.onion/".toList = some ⟨"abcdef.onion".toList⟩ ∧
    buildOutputDir sampleEnv "http://abcdef.onion/".toList "Test_Page".toList =
      some "output/Test_Page_2024-05-17_09-03-07_abcdef_ee565d".toList := by
  refine ⟨by decide, ?_⟩
  have h := (buildOutputDir_format sampleEnv "http://abcdef.onion/".toList "Test_Page".toList
    ⟨"abcdef.onion".toList⟩ (by decide)).1
  rw [h]
  decide

/-- C7 fails as stated: the host `abcdef.onion:8080` does not end in `.onion`,
and the directory name still has it without `.onion`. -/
theorem buildOutputDir_format_counterexample :
    sampleEnv.urlParse "http://abcdef.onion:8080/".toList = some ⟨"abcdef.onion:8080".toList⟩ ∧
    ¬ ".onion".toList <:+ "abcdef.onion:8080".toList ∧
    buildOutputDir sampleEnv "http://abcdef.onion:8080/".toList "Test_Page".toList =
      some "output/Test_Page_2024-05-17_09-03-07_abcdef:8080_a2b654".toList ∧
    buildOutputDir sampleEnv "http://abcdef.onion:8080/".toList "Test_Page".toList ≠
      some "output/Test_Page_2024-05-17_09-03-07_abcdef.onion:8080_a2b654".toList := by
  decide

/-- Lower-casing an ASCII string to a lower-case string means the two are
equal under case folding. -/
theorem equalFold_of_toLower (env : Env)
    (hascii : ∀ c : Char, c.toNat < 128 → env.unicodeToLower c = c.toLower) :
    ∀ (v t : Str), (∀ c ∈ v, c.toNat < 128) → (∀ c ∈ t, c.toLower = c) →
      stringsToLower env v = t → equalFold v t = true := by
  intro v
  induction v with
  | nil =>
    intro t _ _ h
    cases t with
    | nil => rfl
    | cons c t => simp [stringsToLower] at h
  | cons x s ih =>
    intro t hv ht h
    cases t with
    | nil => simp [stringsToLower] at h
    | cons c t =>
      simp only [stringsToLower, List.map_cons, List.cons.injEq] at h
      have hx : x.toLower = c := by rw [← hascii x (hv x (by simp))]; exact h.1
      have hc : c.toLower = c := ht c (by simp)
      have hf : folded c x = true := by simp [folded, hx, hc]
      have hrest := ih t (fun a ha => hv a (by simp [ha])) (fun a ha => ht a (by simp [ha])) h.2
      simp [equalFold, hf, hrest]

/-- C8, as the code has it: when the Content-Encoding header is absent, or its
value lower-cased by `strings.ToLower` is neither `gzip` nor `deflate`, or its
value is made of ASCII runes and equals neither `gzip` nor `deflate` under case
folding (`unicode.ToLower` being the ASCII lower-casing on ASCII runes), and
reading the body succeeds with bytes `b`, then `readResponseBody` returns
exactly `b` and no error. -/
theorem readResponseBody_passthrough (env : Env) (resp : Response) (b : Str)
    (henc : resp.header.lookup "Content-Encoding".toList = none ∨
      (stringsToLower env (resp.headerGet "Content-Encoding".toList) ≠ "gzip".toList ∧
       stringsToLower env (resp.headerGet "Content-Encoding".toList) ≠ "deflate".toList) ∨
      ((∀ c : Char, c.toNat < 128 → env.unicodeToLower c = c.toLower) ∧
       (∀ c ∈ resp.headerGet "Content-Encoding".toList, c.toNat < 128) ∧
       equalFold (resp.headerGet "Content-Encoding".toList) "gzip".toList = false ∧
       equalFold (resp.headerGet "Content-Encoding".toList) "deflate".toList = false))
    (hbody : resp.body = .ok b) : readResponseBody env resp = .ok b := by
  have h2 : stringsToLower env (resp.headerGet "Content-Encoding".toList) ≠ "gzip".toList ∧
      stringsToLower env (resp.headerGet "Content-Encoding".toList) ≠ "deflate".toList := by
    rcases henc with h | h | ⟨hascii, hv, hg, hd⟩
    · have : resp.headerGet "Content-Encoding".toList = [] := by
        unfold Response.headerGet
        rw [h]
      rw [this]
      exact ⟨by simp [stringsToLower], by simp [stringsToLower]⟩
    · exact h
    · constructor
      · intro h
        rw [equalFold_of_toLower env hascii _ _ hv (by decide) h] at hg
        cases hg
      · intro h
        rw [equalFold_of_toLower env hascii _ _ hv (by decide) h] at hd
        cases hd
  unfold readResponseBody
  simp only
  rw [if_neg h2.1, if_neg h2.2, hbody]

/-- C8 at a response without the header and at one encoded with `BR`, through
the lower-cased value and through case folding. -/
theorem readResponseBody_passthrough_witness :
    readResponseBody sampleEnv plainResponse = .ok "<title>Test Page</title>".toList ∧
    readResponseBody sampleEnv brotliResponse = .ok "<title>Test Page</title>".toList ∧
    (equalFold (brotliResponse.headerGet "Content-Encoding".toList) "gzip".toList = false ∧
      readResponseBody sampleEnv brotliResponse = .ok "<title>Test Page</title>".toList) :=
  ⟨readResponseBody_passthrough sampleEnv plainResponse _ (Or.inl (by decide)) rfl,
   readResponseBody_passthrough sampleEnv brotliResponse _
    (Or.inr (Or.inl ⟨by decide, by decide⟩)) rfl,
   by decide,
   readResponseBody_passthrough sampleEnv brotliResponse _
    (Or.inr (Or.inr ⟨fun _ _ => rfl, by decide, by decide, by decide⟩)) rfl⟩

/-- C8 fails as stated: the value `GZİP` is neither `gzip` nor `deflate` under
case folding, yet `strings.ToLower` turns it into `gzip`, so the body, which is
not compressed, goes to the gzip reader and the call ends with its error. -/
theorem readResponseBody_passthrough_counterexample :
    dottedResponse.headerGet "Content-Encoding".toList = dottedGzip ∧
    equalFold dottedGzip "gzip".toList = false ∧
    equalFold dottedGzip "deflate".toList = false ∧
    stringsToLower dottedEnv dottedGzip = "gzip".toList ∧
    dottedResponse.body = .ok "<title>Test Page</title>".toList ∧
    readResponseBody dottedEnv dottedResponse = .error "gzip: invalid header".toList ∧
    readResponseBody dottedEnv dottedResponse ≠ .ok "<title>Test Page</title>".toList := by
  have h : readResponseBody dottedEnv dottedResponse = .error "gzip: invalid header".toList :=
    rfl
  refine ⟨by decide, by decide, by decide, by decide, rfl, h, ?_⟩
  intro h2
  rw [h] at h2
  cases h2

/-- C2 fails in the code: for a target with a tab in it `http.NewRequest`
returns no request, and `scanTarget` panics on `req.Header` instead of
returning. -/
theorem scanTarget_panics_on_bad_target :
    sampleEnv.newRequest "http://abcdef.onion/\tindex".toList = none ∧
    scanTarget sampleEnv "http://abcdef.onion/\tindex".toList = .panicked [] := by
  decide

end TorScraper
